import Mathlib

/-!
Verification development for the PyTensor repository.

Python/numpy arrays are modelled shallowly: a multi-way array is a total
function from multi-indices (`List ℕ`) to values together with an explicit
shape list; a matrix is a total function `ℕ → ℕ → α` with the relevant
dimensions passed explicitly to each operation.  All reshape/moveaxis
reindexing follows numpy's row-major (C-order) convention.  Exact arithmetic
is used (ℚ where the modelled code is purely algebraic, ℝ where the source
calls `np.linalg.norm`, which takes square roots).
-/

namespace PyTensor

/-! ## Multi-way array machinery (src/base.py: `unfold`, `fold`) -/

/-- Insert a value at a given position of a list (used to model `np.moveaxis`). -/
def insertAt {α : Type*} : ℕ → α → List α → List α
  | 0, a, l => a :: l
  | _+1, a, [] => [a]
  | n+1, a, x :: xs => x :: insertAt n a xs

/-- Row-major (C-order) flat position of a multi-index for a given shape. -/
def rankRM : List ℕ → List ℕ → ℕ
  | _, [] => 0
  | [], _ :: _ => 0
  | _ :: ds, i :: iv => i * ds.prod + rankRM ds iv

/-- Inverse of `rankRM`: the multi-index corresponding to a row-major flat position. -/
def unrankRM : List ℕ → ℕ → List ℕ
  | [], _ => []
  | _ :: ds, c => c / ds.prod :: unrankRM ds (c % ds.prod)

/-- Multi-index validity: same length as the shape and pointwise within bounds. -/
def validIdx : List ℕ → List ℕ → Bool
  | [], [] => true
  | d :: ds, i :: iv => decide (i < d) && validIdx ds iv
  | _, _ => false

/-- Python/numpy index normalisation: a negative index counts from the end. -/
def pyIdx (n : ℤ) (d : ℕ) : ℕ := (if n < 0 then n + d else n).toNat

/-- Entrywise effect of `np.moveaxis(T, n, 0)`: the moved array read at a
multi-index takes its first coordinate for axis `n` of the original array. -/
def moveaxisToFront {α : Type*} (T : List ℕ → α) (n : ℕ) : List ℕ → α :=
  fun ix => T (insertAt n (ix.headD 0) ix.tail)

/-- Entrywise effect of reshaping an array whose first axis is kept to a 2-D
matrix (`X.reshape(X.shape[0], -1)`), row-major over the remaining axes. -/
def reshapeToMatrix {α : Type*} (T : List ℕ → α) (restShape : List ℕ) : ℕ → ℕ → α :=
  fun i c => T (i :: unrankRM restShape c)

/-- `unfold(A, n)` from src/base.py:
`np.moveaxis(A, n, 0).reshape(A.shape[n], -1)`.  Negative `n` is allowed. -/
def unfold {α : Type*} (T : List ℕ → α) (s : List ℕ) (n : ℤ) : ℕ → ℕ → α :=
  reshapeToMatrix (moveaxisToFront T (pyIdx n s.length)) (s.eraseIdx (pyIdx n s.length))

/-- Entrywise effect of reshaping a 2-D matrix back to an array whose first
axis is the matrix row axis, row-major over the remaining axes. -/
def reshapeFromMatrix {α : Type*} (M : ℕ → ℕ → α) (restShape : List ℕ) : List ℕ → α :=
  fun ix => M (ix.headD 0) (rankRM restShape ix.tail)

/-- Entrywise effect of `np.moveaxis(T, 0, n)`. -/
def moveaxisFromFront {α : Type*} (T : List ℕ → α) (n : ℕ) : List ℕ → α :=
  fun ix => T (ix.getD n 0 :: ix.eraseIdx n)

/-- `fold(M, n, shape)` from src/base.py: pop `shape[n]`, insert it in front,
reshape `M` to that shape and move axis 0 back to position `n`. -/
def fold {α : Type*} (M : ℕ → ℕ → α) (n : ℤ) (s : List ℕ) : List ℕ → α :=
  moveaxisFromFront (reshapeFromMatrix M (s.eraseIdx (pyIdx n s.length))) (pyIdx n s.length)

/-! ## Matrices and Khatri-Rao products (src/base.py) -/

/-- Matrix product with explicit inner dimension `n`:
`(A @ B)[i, j] = Σ_{k<n} A[i,k] * B[k,j]`. -/
def matMul {α : Type*} [CommRing α] (n : ℕ) (A B : ℕ → ℕ → α) : ℕ → ℕ → α :=
  fun i j => ∑ k ∈ Finset.range n, A i k * B k j

/-- A matrix paired with its row count (column counts play no role in the
Khatri-Rao row layout). -/
structure PMat (α : Type*) where
  entry : ℕ → ℕ → α
  rows : ℕ

/-- `khatri_rao_binary(A, B)` from src/base.py: `out[i*J + j, k] = A[i,k] * B[j,k]`
where `J = B.rows`, so `out[c, k] = A[c / J, k] * B[c % J, k]`. -/
def khatriRaoBinary {α : Type*} [CommRing α] (p q : PMat α) : PMat α :=
  ⟨fun c r => p.entry (c / q.rows) r * q.entry (c % q.rows) r, p.rows * q.rows⟩

/-- Python `list.pop(i)` applied functionally (supports negative `i`). -/
def pyPop {β : Type*} (l : List β) (i : ℤ) : List β := l.eraseIdx (pyIdx i l.length)

/-- `khatri_rao(*factors, skip=skip)` from src/base.py: optionally pop the
skipped factor, then left-fold the binary Khatri-Rao product. -/
def khatriRao {α : Type*} [CommRing α] (factors : List (PMat α)) (skip : Option ℤ) : PMat α :=
  match (match skip with | none => factors | some i => pyPop factors i) with
  | [] => ⟨fun _ _ => 0, 0⟩   -- the source would raise IndexError on factors[0] here
  | f :: rest => rest.foldl khatriRaoBinary f

/-! ## 3-mode MTTKRP (src/base.py: `matrix_khatri_rao_product`, `_mttkrp3`,
`_mttkrp_mid`, `_mttkrp_mid_with_krp`) -/

/-- A 3-mode tensor given entrywise, viewed as a multi-index function. -/
def tensor3Fun {α : Type*} (X : ℕ → ℕ → ℕ → α) : List ℕ → α :=
  fun ix => X (ix.getD 0 0) (ix.getD 1 0) (ix.getD 2 0)

/-- `_mttkrp_mid_with_krp(tensor, krp)` from src/base.py, including the
source's `idx = i % shape[0]` indexing and the `krp[i*block_size:(i+1)*block_size]`
row blocks (`block_size = shape[-1] = K`). -/
def mttkrpMidWithKrp {α : Type*} [CommRing α] (X : ℕ → ℕ → ℕ → α) (I K : ℕ)
    (krp : ℕ → ℕ → α) : ℕ → ℕ → α :=
  fun j r => ∑ i ∈ Finset.range I, ∑ k ∈ Finset.range K, X (i % I) j k * krp (i * K + k) r

/-- `_mttkrp3(X, factors, mode)` from src/base.py (the body of
`matrix_khatri_rao_product` for three factor matrices).  `I, J, K` are the
tensor dimensions; `A, B, C` the factor matrices.  For modes other than
0, 1, 2, -1 the source implicitly returns None; we return the zero matrix. -/
def mttkrp3 {α : Type*} [CommRing α] (X : ℕ → ℕ → ℕ → α) (I J K : ℕ)
    (A B C : ℕ → ℕ → α) (mode : ℤ) : ℕ → ℕ → α :=
  if mode = 0 then
    matMul (J * K) (fun i c => X i (c / K) (c % K))
      (khatriRao [⟨A, I⟩, ⟨B, J⟩, ⟨C, K⟩] (some mode)).entry
  else if mode = 1 then
    mttkrpMidWithKrp X I K (khatriRao [⟨A, I⟩, ⟨B, J⟩, ⟨C, K⟩] (some 1)).entry
  else if mode = 2 ∨ mode = -1 then
    matMul (I * J) (fun k c => X (c / J) (c % J) k)
      (khatriRao [⟨A, I⟩, ⟨B, J⟩, ⟨C, K⟩] (some mode)).entry
  else fun _ _ => 0

/-- The generic MTTKRP formula `unfold(X, mode) @ khatri_rao(*factors, skip=mode)`
(the fallback branch of `matrix_khatri_rao_product` and the spec's definition). -/
def mkrpGeneric {α : Type*} [CommRing α] (X : ℕ → ℕ → ℕ → α) (I J K : ℕ)
    (A B C : ℕ → ℕ → α) (mode : ℤ) : ℕ → ℕ → α :=
  matMul (khatriRao [⟨A, I⟩, ⟨B, J⟩, ⟨C, K⟩] (some mode)).rows
    (unfold (tensor3Fun X) [I, J, K] mode)
    (khatriRao [⟨A, I⟩, ⟨B, J⟩, ⟨C, K⟩] (some mode)).entry

/-! ## PARAFAC2 / evolving-tensor slice construction (src/base.py:
`EvolvingTensor.construct_slice`) -/

/-- `EvolvingTensor.construct_slice(k)` from src/base.py:
`loadings = factor_matrices[0]`, `scores = factor_matrices[2][k] * factor_matrices[1][k]`
(numpy broadcast: `scores[j, r] = Crow[r] * Bk[j, r]`) and the return value is
`loadings @ scores` — with NO transpose of `scores`.  The matrix product
contracts over the `R` columns of `loadings`, so `scores` is read with its
row index in the rank position. -/
def constructSlice (R : ℕ) (A Bk : ℕ → ℕ → ℚ) (Crow : ℕ → ℚ) : ℕ → ℕ → ℚ :=
  matMul R A (fun r c => Crow c * Bk r c)

/-- The slice formula documented in the `Parafac2Tensor` docstring and the spec:
`X_k = A @ diag(C_k) @ B_k.T`, i.e. `X_k[i, j] = Σ_r A[i,r] * C_k[r] * B_k[j,r]`. -/
def parafac2SliceDoc (R : ℕ) (A Bk : ℕ → ℕ → ℚ) (Crow : ℕ → ℚ) : ℕ → ℕ → ℚ :=
  fun i j => ∑ r ∈ Finset.range R, A i r * Crow r * Bk j r

/-- Concrete 2×2 identity-like matrix for the C4 evaluation. -/
def exA : ℕ → ℕ → ℚ := fun i r => if i = r then 1 else 0

/-- Concrete 2×2 matrix with a single off-diagonal 1 for the C4 evaluation. -/
def exB : ℕ → ℕ → ℚ := fun j r => if j = 0 ∧ r = 1 then 1 else 0

/-- Concrete all-ones C-row for the C4 evaluation. -/
def exC : ℕ → ℚ := fun _ => 1

/-! ## Python exceptions (shallow model) -/

/-- Shallow model of the Python exceptions raised by the modelled code.
`nameError` models a `NameError` caused by an undefined variable appearing
inside an f-string of a `raise` statement. -/
inductive PyExn
  | valueError (msg : String)
  | nameError (missing : String)
  | indexError (msg : String)
  deriving DecidableEq

/-! ## KruskalTensor construction validation (src/base.py: `KruskalTensor.__init__`) -/

/-- `KruskalTensor.__init__` shape/weight validation, on factor shapes
`(rows, cols)` and an optional weight-vector length.  The column-mismatch
branch of the source builds its `ValueError` message with an f-string that
references `i`, but the loop is `for factor_matrix in factor_matrices:` with
no `enumerate`, so `i` is undefined and evaluating the f-string raises
`NameError` instead of the intended `ValueError`.  The weight-length branch
raises a well-formed `ValueError`. -/
def kruskalInitCheck (factorShapes : List (ℕ × ℕ)) (weightsLen : Option ℕ) :
    Except PyExn ℕ :=
  match factorShapes with
  | [] => .error (.indexError "factor_matrices[0] on an empty list")
  | f0 :: rest =>
    let rank := f0.2
    match (f0 :: rest).find? (fun f => f.2 != rank) with
    | some _ => .error (.nameError "i")
    | none =>
      match weightsLen with
      | none => .ok rank
      | some L =>
        if L ≠ rank then
          .error (.valueError "There must be as many weights as there are columns in the factor matrices.")
        else .ok rank

/-! ## SVD initialisation (src/pytensor/decomposition/cp.py: `BaseCP.init_svd`) -/

/-- Python `min` over a nonempty list (0 on the empty list, where the source
would raise). -/
def pyMin : List ℕ → ℕ
  | [] => 0
  | x :: xs => xs.foldl Nat.min x

/-- `u[:, :rank]`: keep the first `rank` columns of a matrix. -/
def colSlice (M : ℕ → ℕ → ℚ) (rank : ℕ) : ℕ → ℕ → ℚ :=
  fun i j => if j < rank then M i j else 0

/-- `BaseCP.init_svd` from src/pytensor/decomposition/cp.py.  `svdU m`
abstracts `np.linalg.svd(base.unfold(X, m))[0]` (numpy is external to the
repository): its columns are the left singular vectors of the mode-`m`
unfolding.  The source raises `ValueError` when `rank > min(X.shape)` and
otherwise builds one truncated factor per mode. -/
def initSvd (rank : ℕ) (shape : List ℕ) (svdU : ℕ → (ℕ → ℕ → ℚ)) :
    Except PyExn (List (ℕ → ℕ → ℚ)) :=
  if pyMin shape < rank then
    .error (.valueError "SVD initialisation does not work when rank is larger than the smallest dimension of X.")
  else
    .ok ((List.range shape.length).map fun m => colSlice (svdU m) rank)

/-! ## Checkpoint loading (src/pytensor/decomposition/base_decomposer.py:
`BaseDecomposer.load_checkpoint`) -/

/-- The persistent checkpoint store, abstracted as in the spec: an optional
`final_iteration` attribute and one optional group per iteration number. -/
structure CheckpointStore (D : Type*) where
  finalIteration : Option ℕ
  groups : ℕ → Option D

/-- The decomposer state touched by `load_checkpoint` on success. -/
structure CkptState (D : Type*) where
  currentIteration : ℕ
  decomposition : D

/-- `BaseDecomposer.load_checkpoint(checkpoint_path, load_it)`: error when the
store has no `final_iteration` attribute; otherwise resolve `load_it` (the
recorded final iteration when None), error when that iteration's group is
absent, validate the loaded decomposition (`_check_valid_components`) and on
success install the loaded iteration and decomposition. -/
def loadCheckpoint {D : Type*} (store : CheckpointStore D)
    (validate : D → Except PyExn Unit) (loadIt : Option ℕ) :
    Except PyExn (CkptState D) :=
  match store.finalIteration with
  | none => .error (.valueError "There is no checkpoints in checkpoint_path")
  | some fin =>
    let it := loadIt.getD fin
    match store.groups it with
    | none => .error (.valueError "There is no checkpoint group in checkpoint_path")
    | some d =>
      match validate d with
      | .error e => .error e
      | .ok _ => .ok ⟨it, d⟩

/-! ## fit / continue_fit entry behaviour (src/pytensor/decomposition/
base_decomposer.py and cp.py) -/

/-- The decomposer state relevant to the fit entry points: `max_its`,
`current_iteration`, the target `X` and its cached norm, the decomposition,
and the convergence trackers `_rel_function_change` and `prev_SSE`
(CP_ALS).  Value types are abstract. -/
structure FitState (TX TD TT : Type*) where
  maxIts : ℕ
  currentIteration : ℕ
  target : TX
  targetNorm : TT
  decomposition : TD
  relFunctionChange : TT
  prevSSE : TT

/-- The state change `continue_fit(max_its)` performs before calling `_fit`:
override `max_its` when an argument is given, touch nothing else. -/
def continueFitEntry {TX TD TT : Type*} (maxIts : Option ℕ)
    (s : FitState TX TD TT) : FitState TX TD TT :=
  match maxIts with
  | none => s
  | some v => { s with maxIts := v }

/-- The state change `_init_fit` (plus `CP_ALS._init_fit`) performs before
`_fit`: reset the iteration counter to 0, set the target and its norm,
re-initialise the decomposition (`init_components`, abstracted as `initDec`),
optionally override `max_its`, and reset the convergence trackers. -/
def initFitEntry {TX TD TT : Type*} (X : TX) (normX : TT) (initDec : TD)
    (maxIts : Option ℕ) (infVal sse0 : TT) (s : FitState TX TD TT) :
    FitState TX TD TT :=
  { maxIts := maxIts.getD s.maxIts, currentIteration := 0, target := X,
    targetNorm := normX, decomposition := initDec,
    relFunctionChange := infVal, prevSSE := sse0 }

/-! ## ADMM subproblem (src/src/tenkit/decomposition/block_parafac2.py:
`ADMMSubproblem.update_decomposition`) -/

/-- Configuration of `ADMMSubproblem`; `nonNegativity` is carried to mirror the
constructor signature, but — exactly as in the source — it is never consulted
by `update_decomposition`, `init_aux_factor_matrix` or `update_constraint`. -/
structure ADMMCfg where
  rho : ℚ
  tol : ℚ
  maxIt : ℕ
  nonNegativity : Bool

/-- The three ADMM variables: main (the factor matrix), auxiliary, dual. -/
structure ADMMVars where
  fm : ℕ → ℕ → ℚ
  aux : ℕ → ℕ → ℚ
  dual : ℕ → ℕ → ℚ

/-- Sum of squared entries of an `nr × nc` matrix. -/
def sumSq (nr nc : ℕ) (M : ℕ → ℕ → ℚ) : ℚ :=
  ∑ i ∈ Finset.range nr, ∑ j ∈ Finset.range nc, (M i j) ^ 2

/-- The ADMM inner loop of `update_decomposition`: stop early when
`has_converged` (the source compares `np.linalg.norm(fm - aux) < tol`; over ℚ
we compare the squared norm with `tol²`, which selects the same branch for the
positive tolerances the class is used with), otherwise set the main variable
to the proximal least-squares result (`prox_reg_lstsq`, abstracted as the
oracle `prox t` since `np.linalg.lstsq` is external), refresh the auxiliary
variable by `np.maximum(fm + dual, 0)` — unconditionally, with no
non-negativity check — and take the dual ascent step. -/
def admmLoop (cfg : ADMMCfg) (nr nc : ℕ) (prox : ℕ → (ℕ → ℕ → ℚ)) :
    ℕ → ℕ → ADMMVars → ADMMVars
  | 0, _, v => v
  | fuel+1, t, v =>
    if sumSq nr nc (fun i j => v.fm i j - v.aux i j) < cfg.tol ^ 2 then v
    else
      let fmNew := prox t
      let auxNew := fun i j => max (fmNew i j + v.dual i j) 0
      let dualNew := fun i j => v.dual i j + (fmNew i j - auxNew i j)
      admmLoop cfg nr nc prox fuel (t+1) ⟨fmNew, auxNew, dualNew⟩

/-- The factor matrix `ADMMSubproblem.update_decomposition` leaves in
`decomposition.factor_matrices[mode]`: initialise the main variable by
unregularised least squares (oracle `lstsq0`), the auxiliary variable by
`np.maximum(fm, 0)` (`init_aux_factor_matrix`, unconditional), the dual
variable by zeros, run the loop, and finally copy the auxiliary variable into
the factor matrix ("use aux variable for hard constraints"). -/
def admmUpdatedFactor (cfg : ADMMCfg) (nr nc : ℕ) (lstsq0 : ℕ → ℕ → ℚ)
    (prox : ℕ → (ℕ → ℕ → ℚ)) : ℕ → ℕ → ℚ :=
  (admmLoop cfg nr nc prox cfg.maxIt 0
    ⟨lstsq0, fun i j => max (lstsq0 i j) 0, fun _ _ => 0⟩).aux

/-! ## KruskalTensor over the reals, 3-mode (src/base.py `KruskalTensor` and
src/pytensor/decomposition/cp.py `CP_ALS`).  ℝ is needed because
`normalize_components` divides by `np.linalg.norm` column norms. -/

/-- A rank-`R` Kruskal decomposition of a 3-mode tensor: three factor
matrices and a weight vector (entries given as total functions; the
dimensions `I, J, K, R` are passed to each operation). -/
structure KT3 where
  A : ℕ → ℕ → ℝ
  B : ℕ → ℕ → ℝ
  C : ℕ → ℕ → ℝ
  w : ℕ → ℝ

noncomputable section

/-- Euclidean norm of column `r` of a matrix with `rows` rows
(`np.linalg.norm(factor_matrix, axis=0)`). -/
def colNorm (rows : ℕ) (M : ℕ → ℕ → ℝ) (r : ℕ) : ℝ :=
  Real.sqrt (∑ i ∈ Finset.range rows, (M i r) ^ 2)

/-- `KruskalTensor.normalize_components()` (with `update_weights=True`):
every factor matrix is divided columnwise by its column norms, and the weight
vector is SET to the product of the removed norms (`weights = np.ones(rank)`
followed by `weights *= norms` for each factor) — the previous weight vector
is discarded, not multiplied in. -/
def normalizeKT (I J K : ℕ) (S : KT3) : KT3 where
  A := fun i r => S.A i r / colNorm I S.A r
  B := fun j r => S.B j r / colNorm J S.B r
  C := fun k r => S.C k r / colNorm K S.C r
  w := fun r => colNorm I S.A r * colNorm J S.B r * colNorm K S.C r

/-- `KruskalTensor.construct_tensor()` for a 3-mode decomposition:
`fold((weights * factors[0]) @ khatri_rao(*factors[1:]).T, 0, shape)`. -/
def constructTensor3 (I J K R : ℕ) (S : KT3) : List ℕ → ℝ :=
  fold (matMul R (fun i r => S.w r * S.A i r)
    (fun r c => (khatriRao [⟨S.B, J⟩, ⟨S.C, K⟩] none).entry c r)) 0 [I, J, K]

/-- `BaseDecomposer.SSE`: `np.linalg.norm(X - reconstructed_X) ** 2`, the sum
of squared entrywise residuals. -/
def SSE3 (I J K R : ℕ) (X : ℕ → ℕ → ℕ → ℝ) (S : KT3) : ℝ :=
  ∑ i ∈ Finset.range I, ∑ j ∈ Finset.range J, ∑ k ∈ Finset.range K,
    (X i j k - constructTensor3 I J K R S [i, j, k]) ^ 2

/-- `factor_matrix.T @ factor_matrix` entrywise. -/
def gramMat (rows : ℕ) (M : ℕ → ℕ → ℝ) : ℕ → ℕ → ℝ :=
  fun r s => ∑ i ∈ Finset.range rows, M i r * M i s

/-- `CP_ALS._get_als_lhs(skip_mode)`: the Hadamard product of the Gram
matrices of all factors other than the skipped mode (starting from a ones
matrix). -/
def alsLHS (I J K : ℕ) (S : KT3) (m : ℕ) : ℕ → ℕ → ℝ := fun r s =>
  (if 0 = m then 1 else gramMat I S.A r s) *
    (if 1 = m then 1 else gramMat J S.B r s) *
      (if 2 = m then 1 else gramMat K S.C r s)

/-- The least-squares objective of `rightsolve(lhs, rhs)`:
`‖F @ lhs.T - rhs‖²` for an `rows × rank` unknown `F`. -/
def rsObjective (rows rank : ℕ) (lhs rhs F : ℕ → ℕ → ℝ) : ℝ :=
  ∑ i ∈ Finset.range rows, ∑ r ∈ Finset.range rank,
    (matMul rank F (fun a b => lhs b a) i r - rhs i r) ^ 2

/-- Modelled from the spec: `base.rightsolve(lhs, rhs)` ("solve
`X @ lhs.T = rhs` in least-squares sense") is not part of src/, only its
callers are; we characterise its output as any minimiser of the
least-squares objective. -/
def IsRightsolve (rows rank : ℕ) (lhs rhs F : ℕ → ℕ → ℝ) : Prop :=
  ∀ G, rsObjective rows rank lhs rhs F ≤ rsObjective rows rank lhs rhs G

/-- `factor_matrices[mode][...] = new_factor`: replace one factor. -/
def updFactor (S : KT3) (m : ℕ) (F : ℕ → ℕ → ℝ) : KT3 :=
  if m = 0 then { S with A := F } else if m = 1 then { S with B := F }
  else { S with C := F }

/-- One iteration of the `_update_als_factors` loop body for mode `m` given
the solver output `F`: install the new factor, then
`decomposition.normalize_components()`. -/
def alsStep (I J K : ℕ) (S : KT3) (m : ℕ) (F : ℕ → ℕ → ℝ) : KT3 :=
  normalizeKT I J K (updFactor S m F)

/-- A full unconstrained ALS sweep (`CP_ALS._update_als_factors` over modes
0, 1, 2) given the three rightsolve outputs. -/
def alsSweep (I J K : ℕ) (S : KT3) (F G H : ℕ → ℕ → ℝ) : KT3 :=
  alsStep I J K (alsStep I J K (alsStep I J K S 0 F) 1 G) 2 H

/-- Gram matrix `K.T @ K` of a `p × R` Khatri-Rao matrix given entrywise. -/
def gramOf (p : ℕ) (Km : ℕ → ℕ → ℝ) : ℕ → ℕ → ℝ :=
  fun r s => ∑ c ∈ Finset.range p, Km c r * Km c s

/-- `M @ K` for the `m × p` unfolded tensor `M` and `p × R` Khatri-Rao
matrix `K` — the MTTKRP in its generic form. -/
def mkRhs (p : ℕ) (M Km : ℕ → ℕ → ℝ) : ℕ → ℕ → ℝ :=
  fun i r => ∑ c ∈ Finset.range p, M i c * Km c r

/-- Squared Frobenius residual `‖M - F @ K.T‖²` of a mode subproblem. -/
def frobResid (m p R : ℕ) (M Km F : ℕ → ℕ → ℝ) : ℝ :=
  ∑ i ∈ Finset.range m, ∑ c ∈ Finset.range p,
    (M i c - ∑ r ∈ Finset.range R, F i r * Km c r) ^ 2

/-- Frobenius inner product of two `m × n` matrices. -/
def ipR (m n : ℕ) (P Q : ℕ → ℕ → ℝ) : ℝ :=
  ∑ i ∈ Finset.range m, ∑ j ∈ Finset.range n, P i j * Q i j

/-- Residual `F @ lhs.T - rhs` of the rightsolve normal system. -/
def nrmResid (rank : ℕ) (lhs rhs F : ℕ → ℕ → ℝ) : ℕ → ℕ → ℝ :=
  fun i r => matMul rank F (fun a b => lhs b a) i r - rhs i r

/-- The all-ones matrix over ℝ (used for concrete witness states). -/
def oneM : ℕ → ℕ → ℝ := fun _ _ => 1

/-- Concrete Kruskal state with all-ones factors and all-ones weights. -/
def ktOnes : KT3 := ⟨oneM, oneM, oneM, fun _ => 1⟩

/-- Concrete Kruskal state with all-ones factors and weight 2. -/
def ktW2 : KT3 := ⟨oneM, oneM, oneM, fun _ => 2⟩

end

/-! ## Index bookkeeping lemmas -/

theorem validIdx_length {s ix : List ℕ} (h : validIdx s ix = true) :
    ix.length = s.length := by
  induction s generalizing ix with
  | nil =>
    cases ix with
    | nil => rfl
    | cons i iv => simp [validIdx] at h
  | cons d ds ih =>
    cases ix with
    | nil => simp [validIdx] at h
    | cons i iv =>
      simp only [validIdx, Bool.and_eq_true, decide_eq_true_eq] at h
      simp [ih h.2]

theorem rankRM_lt {s ix : List ℕ} (h : validIdx s ix = true) :
    rankRM s ix < s.prod := by
  induction s generalizing ix with
  | nil =>
    cases ix with
    | nil => simp [rankRM]
    | cons i iv => simp [validIdx] at h
  | cons d ds ih =>
    cases ix with
    | nil => simp [validIdx] at h
    | cons i iv =>
      simp only [validIdx, Bool.and_eq_true, decide_eq_true_eq] at h
      have h1 := h.1
      have h2 := ih h.2
      simp only [rankRM, List.prod_cons]
      calc i * ds.prod + rankRM ds iv
          < i * ds.prod + ds.prod := by omega
        _ = (i + 1) * ds.prod := by ring
        _ ≤ d * ds.prod := Nat.mul_le_mul_right _ (by omega)

theorem unrank_rank {s ix : List ℕ} (h : validIdx s ix = true) :
    unrankRM s (rankRM s ix) = ix := by
  induction s generalizing ix with
  | nil =>
    cases ix with
    | nil => rfl
    | cons i iv => simp [validIdx] at h
  | cons d ds ih =>
    cases ix with
    | nil => simp [validIdx] at h
    | cons i iv =>
      simp only [validIdx, Bool.and_eq_true, decide_eq_true_eq] at h
      have hlt : rankRM ds iv < ds.prod := rankRM_lt h.2
      have hpos : 0 < ds.prod := Nat.pos_of_ne_zero (by omega)
      simp only [rankRM, unrankRM]
      have hdiv : (i * ds.prod + rankRM ds iv) / ds.prod = i := by
        rw [Nat.mul_comm i ds.prod, Nat.mul_add_div hpos,
          Nat.div_eq_of_lt hlt, Nat.add_zero]
      have hmod : (i * ds.prod + rankRM ds iv) % ds.prod = rankRM ds iv := by
        rw [Nat.mul_comm i ds.prod, Nat.mul_add_mod, Nat.mod_eq_of_lt hlt]
      rw [hdiv, hmod, ih h.2]

theorem validIdx_eraseIdx (n : ℕ) {s ix : List ℕ} (h : validIdx s ix = true) :
    validIdx (s.eraseIdx n) (ix.eraseIdx n) = true := by
  induction s generalizing ix n with
  | nil =>
    cases ix with
    | nil => simpa [List.eraseIdx] using h
    | cons i iv => simp [validIdx] at h
  | cons d ds ih =>
    cases ix with
    | nil => simp [validIdx] at h
    | cons i iv =>
      simp only [validIdx, Bool.and_eq_true, decide_eq_true_eq] at h
      cases n with
      | zero => simpa [List.eraseIdx] using h.2
      | succ n =>
        simp only [List.eraseIdx, validIdx, Bool.and_eq_true, decide_eq_true_eq]
        exact ⟨h.1, ih n h.2⟩

theorem insertAt_getD_eraseIdx {ix : List ℕ} {n : ℕ} (h : n < ix.length) :
    insertAt n (ix.getD n 0) (ix.eraseIdx n) = ix := by
  induction ix generalizing n with
  | nil => simp at h
  | cons x xs ih =>
    cases n with
    | zero => rfl
    | succ n =>
      simp only [List.length_cons, Nat.succ_lt_succ_iff] at h
      simp only [List.getD_cons_succ, List.eraseIdx, insertAt]
      rw [ih h]

theorem pyIdx_lt {n : ℤ} {d : ℕ} (h1 : -(d : ℤ) ≤ n) (h2 : n < d) :
    pyIdx n d < d := by
  unfold pyIdx
  split <;> omega

/-! ## Claim C2 -/

/-- Claim C2: for every multi-way array `T` with shape `s` and every valid
mode index `n` — including negative indices counting from the last axis —
`fold(unfold(T, n), n, T.shape)` equals `T` at every valid multi-index. -/
theorem fold_unfold_inverse {α : Type*} (T : List ℕ → α) (s : List ℕ) (n : ℤ)
    (h1 : -(s.length : ℤ) ≤ n) (h2 : n < s.length)
    (ix : List ℕ) (hix : validIdx s ix = true) :
    fold (unfold T s n) n s ix = T ix := by
  have hlen : ix.length = s.length := validIdx_length hix
  have hn : pyIdx n s.length < s.length := pyIdx_lt h1 h2
  simp only [fold, unfold, moveaxisFromFront, reshapeFromMatrix,
    reshapeToMatrix, moveaxisToFront, List.headD_cons, List.tail_cons]
  rw [unrank_rank (validIdx_eraseIdx _ hix),
    insertAt_getD_eraseIdx (by omega)]

/-- Witness for C2: a concrete 2×3 array, mode `-1`, multi-index `[1, 2]`. -/
theorem fold_unfold_inverse_witness :
    -((([2, 3] : List ℕ).length : ℤ)) ≤ -1 ∧ (-1 : ℤ) < ([2, 3] : List ℕ).length ∧
      validIdx [2, 3] [1, 2] = true ∧
      fold (unfold (fun ix => 10 * ix.headD 0 + ix.getD 1 0) [2, 3] (-1)) (-1)
        [2, 3] [1, 2] = 12 :=
  ⟨by decide, by decide, by decide,
    (fold_unfold_inverse (fun ix => 10 * ix.headD 0 + ix.getD 1 0) [2, 3] (-1)
      (by decide) (by decide) [1, 2] (by decide)).trans (by decide)⟩

/-! ## Sum reindexing helpers -/

theorem sum_range_add {α : Type*} [AddCommMonoid α] (f : ℕ → α) (a b : ℕ) :
    ∑ c ∈ Finset.range (a + b), f c =
      (∑ c ∈ Finset.range a, f c) + ∑ k ∈ Finset.range b, f (a + k) := by
  induction b with
  | zero => simp
  | succ b ih =>
    rw [show a + (b + 1) = (a + b) + 1 by ring, Finset.sum_range_succ, ih,
      Finset.sum_range_succ, add_assoc]

theorem sum_range_mul {α : Type*} [AddCommMonoid α] (f : ℕ → α) (m n : ℕ) :
    ∑ c ∈ Finset.range (m * n), f c =
      ∑ i ∈ Finset.range m, ∑ k ∈ Finset.range n, f (i * n + k) := by
  induction m with
  | zero => simp
  | succ m ih =>
    rw [Nat.succ_mul, sum_range_add, ih, Finset.sum_range_succ]

theorem block_div {i k n : ℕ} (hk : k < n) : (i * n + k) / n = i := by
  have hn : 0 < n := by omega
  rw [Nat.mul_comm i n, Nat.mul_add_div hn, Nat.div_eq_of_lt hk, Nat.add_zero]

theorem block_mod {i k n : ℕ} (hk : k < n) : (i * n + k) % n = k := by
  rw [Nat.mul_comm i n, Nat.mul_add_mod, Nat.mod_eq_of_lt hk]

/-! ## Khatri-Rao and unfolding reductions for three factors -/

theorem khatriRao_skip0 {α : Type*} [CommRing α] (A B C : ℕ → ℕ → α) (I J K : ℕ) :
    khatriRao [⟨A, I⟩, ⟨B, J⟩, ⟨C, K⟩] (some 0) = khatriRaoBinary ⟨B, J⟩ ⟨C, K⟩ := rfl

theorem khatriRao_skip1 {α : Type*} [CommRing α] (A B C : ℕ → ℕ → α) (I J K : ℕ) :
    khatriRao [⟨A, I⟩, ⟨B, J⟩, ⟨C, K⟩] (some 1) = khatriRaoBinary ⟨A, I⟩ ⟨C, K⟩ := rfl

theorem khatriRao_skip2 {α : Type*} [CommRing α] (A B C : ℕ → ℕ → α) (I J K : ℕ) :
    khatriRao [⟨A, I⟩, ⟨B, J⟩, ⟨C, K⟩] (some 2) = khatriRaoBinary ⟨A, I⟩ ⟨B, J⟩ := rfl

theorem khatriRao_skipNeg1 {α : Type*} [CommRing α] (A B C : ℕ → ℕ → α) (I J K : ℕ) :
    khatriRao [⟨A, I⟩, ⟨B, J⟩, ⟨C, K⟩] (some (-1)) = khatriRaoBinary ⟨A, I⟩ ⟨B, J⟩ := rfl

theorem unfold3_mode0 {α : Type*} (X : ℕ → ℕ → ℕ → α) (I J K i c : ℕ) :
    unfold (tensor3Fun X) [I, J, K] 0 i c = X i (c / K) (c % K) := by
  simp [unfold, reshapeToMatrix, moveaxisToFront, tensor3Fun, pyIdx,
    unrankRM, insertAt, List.eraseIdx]

theorem unfold3_mode1 {α : Type*} (X : ℕ → ℕ → ℕ → α) (I J K j c : ℕ) :
    unfold (tensor3Fun X) [I, J, K] 1 j c = X (c / K) j (c % K) := by
  simp [unfold, reshapeToMatrix, moveaxisToFront, tensor3Fun, pyIdx,
    unrankRM, insertAt, List.eraseIdx]

theorem unfold3_mode2 {α : Type*} (X : ℕ → ℕ → ℕ → α) (I J K k c : ℕ) :
    unfold (tensor3Fun X) [I, J, K] 2 k c = X (c / J) (c % J) k := by
  simp [unfold, reshapeToMatrix, moveaxisToFront, tensor3Fun, pyIdx,
    unrankRM, insertAt, List.eraseIdx]

theorem unfold3_modeNeg1 {α : Type*} (X : ℕ → ℕ → ℕ → α) (I J K k c : ℕ) :
    unfold (tensor3Fun X) [I, J, K] (-1) k c = X (c / J) (c % J) k := by
  simp [unfold, reshapeToMatrix, moveaxisToFront, tensor3Fun, pyIdx,
    unrankRM, insertAt, List.eraseIdx]

/-- The mode-1 block-accumulation path agrees with the generic contraction:
the sum over the rows of the Khatri-Rao product of `A` and `C`, reindexed by
blocks of size `K`, recovers `_mttkrp_mid_with_krp` including its
`idx = i % shape[0]` no-op indexing. -/
theorem mttkrpMid_eq_generic_sum {α : Type*} [CommRing α] (X : ℕ → ℕ → ℕ → α)
    (A C : ℕ → ℕ → α) (I K : ℕ) (j r : ℕ) :
    mttkrpMidWithKrp X I K (khatriRaoBinary ⟨A, I⟩ ⟨C, K⟩).entry j r =
      ∑ c ∈ Finset.range (I * K),
        X (c / K) j (c % K) * (khatriRaoBinary ⟨A, I⟩ ⟨C, K⟩).entry c r := by
  rw [sum_range_mul (fun c => X (c / K) j (c % K) *
    (khatriRaoBinary ⟨A, I⟩ ⟨C, K⟩).entry c r) I K]
  refine Finset.sum_congr rfl fun i hi => Finset.sum_congr rfl fun k hk => ?_
  simp only [Finset.mem_range] at hi hk
  simp only [mttkrpMidWithKrp, khatriRaoBinary, block_div hk, block_mod hk,
    Nat.mod_eq_of_lt hi]

/-! ## Claim C1 -/

/-- Claim C1: for every 3-mode tensor and factor matrices,
`matrix_khatri_rao_product(X, factors, mode)` (which dispatches to the
specialized `_mttkrp3` paths) returns, entrywise, exactly the same matrix as
the generic formula `unfold(X, mode) @ khatri_rao(*factors, skip=mode)` for
modes 0, 1, 2 and -1; in particular the mode-1 block-accumulation path
`_mttkrp_mid_with_krp`, including its `idx = i % shape[0]` indexing, agrees
with the generic formula. -/
theorem mttkrp3_agrees_with_generic {α : Type*} [CommRing α]
    (X : ℕ → ℕ → ℕ → α) (I J K : ℕ) (A B C : ℕ → ℕ → α) (mode : ℤ)
    (hm : mode = 0 ∨ mode = 1 ∨ mode = 2 ∨ mode = -1) :
    ∀ i r, mttkrp3 X I J K A B C mode i r = mkrpGeneric X I J K A B C mode i r := by
  intro i r
  rcases hm with h | h | h | h <;> subst h
  · show matMul (J * K) (fun i c => X i (c / K) (c % K))
        (khatriRaoBinary ⟨B, J⟩ ⟨C, K⟩).entry i r =
      matMul (J * K) (unfold (tensor3Fun X) [I, J, K] 0)
        (khatriRaoBinary ⟨B, J⟩ ⟨C, K⟩).entry i r
    simp only [matMul]
    refine Finset.sum_congr rfl fun c _ => ?_
    rw [unfold3_mode0]
  · show mttkrpMidWithKrp X I K (khatriRaoBinary ⟨A, I⟩ ⟨C, K⟩).entry i r =
      matMul (I * K) (unfold (tensor3Fun X) [I, J, K] 1)
        (khatriRaoBinary ⟨A, I⟩ ⟨C, K⟩).entry i r
    rw [mttkrpMid_eq_generic_sum]
    simp only [matMul]
    refine Finset.sum_congr rfl fun c _ => ?_
    rw [unfold3_mode1]
  · show matMul (I * J) (fun k c => X (c / J) (c % J) k)
        (khatriRaoBinary ⟨A, I⟩ ⟨B, J⟩).entry i r =
      matMul (I * J) (unfold (tensor3Fun X) [I, J, K] 2)
        (khatriRaoBinary ⟨A, I⟩ ⟨B, J⟩).entry i r
    simp only [matMul]
    refine Finset.sum_congr rfl fun c _ => ?_
    rw [unfold3_mode2]
  · show matMul (I * J) (fun k c => X (c / J) (c % J) k)
        (khatriRaoBinary ⟨A, I⟩ ⟨B, J⟩).entry i r =
      matMul (I * J) (unfold (tensor3Fun X) [I, J, K] (-1))
        (khatriRaoBinary ⟨A, I⟩ ⟨B, J⟩).entry i r
    simp only [matMul]
    refine Finset.sum_congr rfl fun c _ => ?_
    rw [unfold3_modeNeg1]

/-- Witness for C1: a concrete 2×2×2 tensor of distinct entries, mode 1
(the block-accumulation path), evaluated at entry (1, 0). -/
theorem mttkrp3_agrees_with_generic_witness :
    ((1 : ℤ) = 0 ∨ (1 : ℤ) = 1 ∨ (1 : ℤ) = 2 ∨ (1 : ℤ) = -1) ∧
      mttkrp3 (fun i j k => (4 * i + 2 * j + k : ℚ)) 2 2 2
          (fun i r => (i + r : ℚ)) (fun j r => (j + 2 * r : ℚ))
          (fun k r => (k + 3 * r : ℚ)) 1 1 0 =
        mkrpGeneric (fun i j k => (4 * i + 2 * j + k : ℚ)) 2 2 2
          (fun i r => (i + r : ℚ)) (fun j r => (j + 2 * r : ℚ))
          (fun k r => (k + 3 * r : ℚ)) 1 1 0 :=
  ⟨Or.inr (Or.inl rfl),
    mttkrp3_agrees_with_generic (fun i j k => (4 * i + 2 * j + k : ℚ)) 2 2 2
      (fun i r => (i + r : ℚ)) (fun j r => (j + 2 * r : ℚ))
      (fun k r => (k + 3 * r : ℚ)) 1 (Or.inr (Or.inl rfl)) 1 0⟩

/-! ## Claim C4 -/

/-- Claim C4 (code-bug evaluation): `EvolvingTensor.construct_slice` returns
`loadings @ (C[k] * B_k)` with no transpose, so at a concrete rank-2 input
(`A` the 2×2 identity, `B_k` with a single 1 at entry (0,1), `C_k = (1,1)`)
its entry (0,1) is 1 while the documented formula `A @ diag(C_k) @ B_k.T`
gives 0. -/
theorem construct_slice_deviates_from_documented_formula :
    constructSlice 2 exA exB exC 0 1 ≠ parafac2SliceDoc 2 exA exB exC 0 1 := by
  norm_num [constructSlice, parafac2SliceDoc, matMul, exA, exB, exC,
    Finset.sum_range_succ, Finset.sum_range_zero]

/-! ## Claim C6 -/

/-- Claim C6 (code-bug evaluation): constructing a `KruskalTensor` whose
factor matrices disagree on the column count reaches the mismatch branch, but
the `ValueError` message there interpolates the undefined name `i`, so Python
raises `NameError` rather than the claimed `ValueError` naming the offending
factor.  The weight-length check, by contrast, does raise a `ValueError`
immediately. -/
theorem kruskal_init_raises_name_error :
    kruskalInitCheck [(1, 2), (2, 1)] none = .error (.nameError "i") ∧
      kruskalInitCheck [(2, 2), (3, 2)] (some 3) =
        .error (.valueError "There must be as many weights as there are columns in the factor matrices.") :=
  ⟨rfl, rfl⟩

/-! ## Claim C7 -/

/-- Claim C7: `init_svd` raises a ValueError (the InvalidRank condition) if
and only if the configured rank exceeds the smallest dimension of the target
tensor; when the rank is at most the smallest dimension it produces one
factor matrix per mode consisting of the first `rank` left singular vectors
(columns of `svdU m`, which abstracts `np.linalg.svd(unfold(X, m))[0]`). -/
theorem init_svd_rank_check (rank : ℕ) (shape : List ℕ)
    (svdU : ℕ → (ℕ → ℕ → ℚ)) (hne : 0 < shape.length) :
    ((∃ e, initSvd rank shape svdU = .error e) ↔ pyMin shape < rank) ∧
      (rank ≤ pyMin shape →
        initSvd rank shape svdU =
          .ok ((List.range shape.length).map fun m => colSlice (svdU m) rank)) := by
  refine ⟨⟨?_, ?_⟩, ?_⟩
  · rintro ⟨e, he⟩
    by_contra hge
    rw [initSvd, if_neg hge] at he
    simp at he
  · intro hlt
    exact ⟨_, by rw [initSvd, if_pos hlt]⟩
  · intro hle
    rw [initSvd, if_neg (Nat.not_lt.mpr hle)]

/-- Witness for C7: shape (2, 3), rank 2 (feasible: 2 ≤ min = 2). -/
theorem init_svd_rank_check_witness :
    0 < ([2, 3] : List ℕ).length ∧
      (((∃ e, initSvd 2 [2, 3] (fun _ _ _ => (0 : ℚ)) = .error e) ↔
          pyMin [2, 3] < 2) ∧
        (2 ≤ pyMin [2, 3] →
          initSvd 2 [2, 3] (fun _ _ _ => (0 : ℚ)) =
            .ok ((List.range ([2, 3] : List ℕ).length).map
              fun m => colSlice ((fun _ _ _ => (0 : ℚ)) m) 2))) :=
  ⟨by decide, init_svd_rank_check 2 [2, 3] (fun _ _ _ => (0 : ℚ)) (by decide)⟩

/-! ## Claim C8 -/

/-- Claim C8: `load_checkpoint` fails when the store records no final
iteration (no checkpoints) or when the resolved iteration's group is absent;
on success — with `load_it` when given, otherwise the recorded final
iteration — it sets `current_iteration` to the loaded iteration and installs
the validated loaded decomposition. -/
theorem load_checkpoint_spec {D : Type*} (store : CheckpointStore D)
    (validate : D → Except PyExn Unit) (loadIt : Option ℕ) :
    (store.finalIteration = none →
      ∃ e, loadCheckpoint store validate loadIt = .error e) ∧
      (∀ fin, store.finalIteration = some fin →
        store.groups (loadIt.getD fin) = none →
        ∃ e, loadCheckpoint store validate loadIt = .error e) ∧
      (∀ fin d, store.finalIteration = some fin →
        store.groups (loadIt.getD fin) = some d → validate d = .ok () →
        loadCheckpoint store validate loadIt = .ok ⟨loadIt.getD fin, d⟩) := by
  refine ⟨?_, ?_, ?_⟩
  · intro h
    simp only [loadCheckpoint, h]
    exact ⟨_, rfl⟩
  · intro fin hfin hgrp
    simp only [loadCheckpoint, hfin, hgrp]
    exact ⟨_, rfl⟩
  · intro fin d hfin hgrp hval
    simp only [loadCheckpoint, hfin, hgrp, hval]

/-- Witness for C8: a store whose final iteration is 5 with a single group at
iteration 5 holding decomposition 42, loaded with `load_it = None`. -/
theorem load_checkpoint_spec_witness :
    loadCheckpoint (D := ℕ) ⟨some 5, fun n => if n = 5 then some 42 else none⟩
      (fun _ => .ok ()) none = .ok ⟨5, 42⟩ :=
  (load_checkpoint_spec ⟨some 5, fun n => if n = 5 then some 42 else none⟩
    (fun _ => .ok ()) none).2.2 5 42 rfl rfl rfl

/-! ## Claim C9 -/

/-- Claim C9: `continue_fit(max_its)` resumes without reinitialising — at
entry it leaves the decomposition, the target `X` (and its cached norm), the
iteration counter and the convergence trackers exactly as they were, and
overwrites only `max_its`, only when an argument is given — whereas `fit`'s
`_init_fit` resets the iteration counter to zero, sets the target and
replaces the decomposition with a freshly initialised one. -/
theorem continue_fit_frame {TX TD TT : Type*} (s : FitState TX TD TT) (v : ℕ)
    (X : TX) (normX : TT) (initDec : TD) (m : Option ℕ) (infVal sse0 : TT) :
    continueFitEntry none s = s ∧
      (continueFitEntry (some v) s).decomposition = s.decomposition ∧
      (continueFitEntry (some v) s).target = s.target ∧
      (continueFitEntry (some v) s).targetNorm = s.targetNorm ∧
      (continueFitEntry (some v) s).currentIteration = s.currentIteration ∧
      (continueFitEntry (some v) s).relFunctionChange = s.relFunctionChange ∧
      (continueFitEntry (some v) s).prevSSE = s.prevSSE ∧
      (continueFitEntry (some v) s).maxIts = v ∧
      (initFitEntry X normX initDec m infVal sse0 s).currentIteration = 0 ∧
      (initFitEntry X normX initDec m infVal sse0 s).target = X ∧
      (initFitEntry X normX initDec m infVal sse0 s).decomposition = initDec :=
  ⟨rfl, rfl, rfl, rfl, rfl, rfl, rfl, rfl, rfl, rfl, rfl⟩

/-! ## Claim C10 -/

theorem admmLoop_aux_nonneg (cfg : ADMMCfg) (nr nc : ℕ)
    (prox : ℕ → (ℕ → ℕ → ℚ)) :
    ∀ (fuel t : ℕ) (v : ADMMVars), (∀ i j, 0 ≤ v.aux i j) →
      ∀ i j, 0 ≤ (admmLoop cfg nr nc prox fuel t v).aux i j := by
  intro fuel
  induction fuel with
  | zero => intro t v hv i j; exact hv i j
  | succ fuel ih =>
    intro t v hv i j
    rw [admmLoop]
    split
    · exact hv i j
    · exact ih (t + 1) _ (fun i j => le_max_right _ 0) i j

/-- Claim C10: after `ADMMSubproblem.update_decomposition` returns, the
assigned mode's factor matrix is entrywise non-negative for every
configuration — in particular regardless of the `non_negativity` flag, which
the class never consults: the auxiliary variable is initialised and refreshed
by clipping at zero unconditionally, and the final assignment copies the
auxiliary variable into the factor matrix. -/
theorem admm_factor_nonnegative (cfg : ADMMCfg) (nr nc : ℕ)
    (lstsq0 : ℕ → ℕ → ℚ) (prox : ℕ → (ℕ → ℕ → ℚ)) (i j : ℕ) :
    0 ≤ admmUpdatedFactor cfg nr nc lstsq0 prox i j :=
  admmLoop_aux_nonneg cfg nr nc prox cfg.maxIt 0
    ⟨lstsq0, fun a b => max (lstsq0 a b) 0, fun _ _ => 0⟩
    (fun a b => le_max_right _ 0) i j

/-! ## KruskalTensor reconstruction entries -/

/-- Entrywise value of `construct_tensor` at an in-range multi-index: the
fold of `(weights * A) @ khatri_rao(B, C).T` evaluates to the weighted
trilinear sum. -/
theorem constructTensor3_entry (I J K R : ℕ) (S : KT3) (i j k : ℕ)
    (hk : k < K) :
    constructTensor3 I J K R S [i, j, k] =
      ∑ r ∈ Finset.range R, (S.w r * S.A i r) * (S.B j r * S.C k r) := by
  have hc : rankRM [J, K] [j, k] = j * K + k := by
    simp [rankRM]
  have hstep : constructTensor3 I J K R S [i, j, k] =
      matMul R (fun i r => S.w r * S.A i r)
        (fun r c => (khatriRao [⟨S.B, J⟩, ⟨S.C, K⟩] none).entry c r) i (j * K + k) := by
    simp only [constructTensor3, fold, moveaxisFromFront, reshapeFromMatrix,
      pyIdx, List.eraseIdx, List.getD, List.headD_cons, List.tail_cons]
    norm_num [hc]
  rw [hstep]
  simp only [matMul]
  refine Finset.sum_congr rfl fun r _ => ?_
  show (S.w r * S.A i r) * (S.B ((j * K + k) / K) r * S.C ((j * K + k) % K) r) = _
  rw [block_div hk, block_mod hk]

/-- A column divided by its (nonzero) norm has unit norm. -/
theorem colNorm_normalize_unit (rows : ℕ) (M : ℕ → ℕ → ℝ) (r : ℕ)
    (h : colNorm rows M r ≠ 0) :
    colNorm rows (fun i s => M i s / colNorm rows M s) r = 1 := by
  have hnn : 0 ≤ ∑ i ∈ Finset.range rows, (M i r) ^ 2 :=
    Finset.sum_nonneg fun i _ => sq_nonneg _
  have hsq : colNorm rows M r ^ 2 = ∑ i ∈ Finset.range rows, (M i r) ^ 2 :=
    Real.sq_sqrt hnn
  rw [colNorm]
  have hone : ∑ i ∈ Finset.range rows, (M i r / colNorm rows M r) ^ 2 = 1 := by
    simp only [div_pow]
    rw [← Finset.sum_div, ← hsq, div_self (pow_ne_zero 2 h)]
  rw [hone, Real.sqrt_one]

/-- After `normalize_components`, the per-component product
`w' * A' * B' * C'` equals the unweighted product of the original factors:
the previous weight vector is discarded. -/
theorem normalized_recon_term (I J K : ℕ) (T : KT3) (r : ℕ)
    (hA : colNorm I T.A r ≠ 0) (hB : colNorm J T.B r ≠ 0)
    (hC : colNorm K T.C r ≠ 0) (i j k : ℕ) :
    ((normalizeKT I J K T).w r * (normalizeKT I J K T).A i r) *
        ((normalizeKT I J K T).B j r * (normalizeKT I J K T).C k r) =
      T.A i r * (T.B j r * T.C k r) := by
  simp only [normalizeKT]
  field_simp
  ring

/-! ## Claim C5 -/

/-- Counterexample for C5 as stated: for a Kruskal tensor with all-ones 1×1
factors and prior weight vector 2 (not all-ones), `normalize_components()`
overwrites the weights with the product of the column norms (= 1), so
`construct_tensor()` changes from 2 to 1. -/
theorem normalize_components_changes_tensor :
    constructTensor3 1 1 1 1 (normalizeKT 1 1 1 ktW2) [0, 0, 0] ≠
      constructTensor3 1 1 1 1 ktW2 [0, 0, 0] := by
  have h1 : constructTensor3 1 1 1 1 ktW2 [0, 0, 0] = 2 := by
    rw [constructTensor3_entry 1 1 1 1 ktW2 0 0 0 (by norm_num)]
    norm_num [ktW2, oneM, Finset.sum_range_one]
  have h2 : constructTensor3 1 1 1 1 (normalizeKT 1 1 1 ktW2) [0, 0, 0] = 1 := by
    rw [constructTensor3_entry 1 1 1 1 (normalizeKT 1 1 1 ktW2) 0 0 0 (by norm_num)]
    norm_num [normalizeKT, ktW2, oneM, colNorm, Finset.sum_range_one,
      Real.sqrt_one]
  rw [h1, h2]
  norm_num

/-- Claim C5 (amended): after `normalize_components()` every factor column
with nonzero norm has unit Euclidean norm and the weight vector is SET to the
product of the removed column norms; consequently `construct_tensor()`
returns the same tensor before and after the call when the prior weight
vector is all ones (the source overwrites, rather than multiplies into, the
existing weights, so preservation fails for general prior weights). -/
theorem normalize_components_amended (I J K R : ℕ) (S : KT3)
    (hA : ∀ r < R, colNorm I S.A r ≠ 0) (hB : ∀ r < R, colNorm J S.B r ≠ 0)
    (hC : ∀ r < R, colNorm K S.C r ≠ 0) :
    (∀ r < R, colNorm I (normalizeKT I J K S).A r = 1 ∧
        colNorm J (normalizeKT I J K S).B r = 1 ∧
        colNorm K (normalizeKT I J K S).C r = 1) ∧
      (∀ r, (normalizeKT I J K S).w r =
        colNorm I S.A r * colNorm J S.B r * colNorm K S.C r) ∧
      ((∀ r, S.w r = 1) → ∀ i j k, k < K →
        constructTensor3 I J K R (normalizeKT I J K S) [i, j, k] =
          constructTensor3 I J K R S [i, j, k]) := by
  refine ⟨?_, fun r => rfl, ?_⟩
  · intro r hr
    exact ⟨colNorm_normalize_unit I S.A r (hA r hr),
      colNorm_normalize_unit J S.B r (hB r hr),
      colNorm_normalize_unit K S.C r (hC r hr)⟩
  · intro hw i j k hk
    rw [constructTensor3_entry I J K R _ i j k hk,
      constructTensor3_entry I J K R S i j k hk]
    refine Finset.sum_congr rfl fun r hr => ?_
    rw [Finset.mem_range] at hr
    rw [normalized_recon_term I J K S r (hA r hr) (hB r hr) (hC r hr) i j k,
      hw r, one_mul]

/-- Witness for C5 (amended): the all-ones 1×1×1 rank-1 Kruskal tensor. -/
theorem normalize_components_amended_witness :
    (∀ r < 1, colNorm 1 ktOnes.A r ≠ 0) ∧ (∀ r < 1, colNorm 1 ktOnes.B r ≠ 0) ∧
      (∀ r < 1, colNorm 1 ktOnes.C r ≠ 0) ∧
      ((∀ r < 1, colNorm 1 (normalizeKT 1 1 1 ktOnes).A r = 1 ∧
          colNorm 1 (normalizeKT 1 1 1 ktOnes).B r = 1 ∧
          colNorm 1 (normalizeKT 1 1 1 ktOnes).C r = 1) ∧
        (∀ r, (normalizeKT 1 1 1 ktOnes).w r =
          colNorm 1 ktOnes.A r * colNorm 1 ktOnes.B r * colNorm 1 ktOnes.C r) ∧
        ((∀ r, ktOnes.w r = 1) → ∀ i j k, k < 1 →
          constructTensor3 1 1 1 1 (normalizeKT 1 1 1 ktOnes) [i, j, k] =
            constructTensor3 1 1 1 1 ktOnes [i, j, k])) := by
  have h : ∀ r, colNorm 1 oneM r ≠ 0 := by
    intro r
    norm_num [colNorm, oneM, Finset.sum_range_one, Real.sqrt_one]
  exact ⟨fun r _ => h r, fun r _ => h r, fun r _ => h r,
    normalize_components_amended 1 1 1 1 ktOnes
      (fun r _ => h r) (fun r _ => h r) (fun r _ => h r)⟩

/-! ## Least-squares optimality of the rightsolve normal system -/

theorem gramOf_symm (p : ℕ) (Km : ℕ → ℕ → ℝ) (r s : ℕ) :
    gramOf p Km r s = gramOf p Km s r := by
  simp [gramOf, mul_comm]

theorem ipR_nonneg_self (m n : ℕ) (P : ℕ → ℕ → ℝ) : 0 ≤ ipR m n P P :=
  Finset.sum_nonneg fun i _ => Finset.sum_nonneg fun j _ => mul_self_nonneg _

theorem rsObjective_eq_ipR (m R : ℕ) (lhs rhs F : ℕ → ℕ → ℝ) :
    rsObjective m R lhs rhs F =
      ipR m R (nrmResid R lhs rhs F) (nrmResid R lhs rhs F) := by
  simp [rsObjective, ipR, nrmResid, pow_two]

theorem matMul_add_smul (R : ℕ) (F Hm L : ℕ → ℕ → ℝ) (t : ℝ) (i r : ℕ) :
    matMul R (fun i s => F i s + t * Hm i s) L i r =
      matMul R F L i r + t * matMul R Hm L i r := by
  simp only [matMul, add_mul, Finset.sum_add_distrib, mul_assoc, ← Finset.mul_sum]

theorem nrmResid_perturb (R : ℕ) (lhs rhs F Hm : ℕ → ℕ → ℝ) (t : ℝ) :
    nrmResid R lhs rhs (fun i s => F i s + t * Hm i s) =
      fun i r => nrmResid R lhs rhs F i r +
        t * matMul R Hm (fun a b => lhs b a) i r := by
  funext i r
  simp only [nrmResid, matMul_add_smul]
  ring

theorem ipR_expand_sq (m n : ℕ) (P Q : ℕ → ℕ → ℝ) (t : ℝ) :
    ipR m n (fun i j => P i j + t * Q i j) (fun i j => P i j + t * Q i j) =
      ipR m n P P + 2 * t * ipR m n P Q + t ^ 2 * ipR m n Q Q := by
  have h : ∀ i j, (P i j + t * Q i j) * (P i j + t * Q i j) =
      P i j * P i j + (2 * t * (P i j * Q i j) + t ^ 2 * (Q i j * Q i j)) :=
    fun i j => by ring
  simp only [ipR, h, Finset.sum_add_distrib, Finset.mul_sum]
  ring

/-- A real quadratic `a t² + 2 t b` that is nonnegative for every `t`, with
`a ≥ 0`, has vanishing linear coefficient. -/
theorem quad_nonneg_imp_zero {a b : ℝ} (ha : 0 ≤ a)
    (h : ∀ t : ℝ, 0 ≤ a * t ^ 2 + 2 * t * b) : b = 0 := by
  have h1 : (0 : ℝ) < a + 1 := by linarith
  have hk := h (-b / (a + 1))
  have h2 : a * (-b / (a + 1)) ^ 2 + 2 * (-b / (a + 1)) * b =
      (a * b ^ 2 - 2 * b ^ 2 * (a + 1)) / (a + 1) ^ 2 := by
    field_simp
    ring
  rw [h2] at hk
  have h3 : 0 ≤ a * b ^ 2 - 2 * b ^ 2 * (a + 1) := by
    have := mul_le_mul_of_nonneg_right hk (le_of_lt (pow_pos h1 2))
    simpa [div_mul_cancel₀, ne_of_gt (pow_pos h1 2)] using this
  nlinarith [sq_nonneg b]

/-- A minimiser of the rightsolve objective has zero cross term against every
direction. -/
theorem min_imp_cross_zero (m R : ℕ) (lhs rhs F : ℕ → ℕ → ℝ)
    (hmin : ∀ G, rsObjective m R lhs rhs F ≤ rsObjective m R lhs rhs G)
    (Hm : ℕ → ℕ → ℝ) :
    ipR m R (nrmResid R lhs rhs F)
      (fun i r => matMul R Hm (fun a b => lhs b a) i r) = 0 := by
  set E := nrmResid R lhs rhs F with hE
  set HG : ℕ → ℕ → ℝ := fun i r => matMul R Hm (fun a b => lhs b a) i r with hHG
  have key : ∀ t : ℝ, 0 ≤ ipR m R HG HG * t ^ 2 + 2 * t * ipR m R E HG := by
    intro t
    have h1 := hmin (fun i s => F i s + t * Hm i s)
    rw [rsObjective_eq_ipR, rsObjective_eq_ipR, nrmResid_perturb, ← hE] at h1
    rw [show (fun i r => E i r + t * matMul R Hm (fun a b => lhs b a) i r) =
      (fun i r => E i r + t * HG i r) from rfl] at h1
    rw [ipR_expand_sq] at h1
    nlinarith [h1]
  exact quad_nonneg_imp_zero (ipR_nonneg_self m R HG) key

theorem sum3_swap12 {β : Type*} [AddCommMonoid β] (a b c : ℕ) (f : ℕ → ℕ → ℕ → β) :
    ∑ i ∈ Finset.range a, ∑ j ∈ Finset.range b, ∑ k ∈ Finset.range c, f i j k =
      ∑ j ∈ Finset.range b, ∑ i ∈ Finset.range a, ∑ k ∈ Finset.range c, f i j k :=
  Finset.sum_comm

theorem sum3_swap23 {β : Type*} [AddCommMonoid β] (a b c : ℕ) (f : ℕ → ℕ → ℕ → β) :
    ∑ i ∈ Finset.range a, ∑ j ∈ Finset.range b, ∑ k ∈ Finset.range c, f i j k =
      ∑ i ∈ Finset.range a, ∑ k ∈ Finset.range c, ∑ j ∈ Finset.range b, f i j k :=
  Finset.sum_congr rfl fun _ _ => Finset.sum_comm

theorem sum3_rotate {β : Type*} [AddCommMonoid β] (a b c : ℕ) (f : ℕ → ℕ → ℕ → β) :
    ∑ i ∈ Finset.range a, ∑ j ∈ Finset.range b, ∑ k ∈ Finset.range c, f i j k =
      ∑ k ∈ Finset.range c, ∑ i ∈ Finset.range a, ∑ j ∈ Finset.range b, f i j k := by
  rw [sum3_swap23, sum3_swap12]

/-- For a minimiser of the rightsolve objective with Gram left-hand side and
MTTKRP right-hand side, the normal-system residual is orthogonal to the
Khatri-Rao matrix: `E @ K.T = 0` on the relevant index ranges. -/
theorem min_imp_EK_zero (m p R : ℕ) (M Km F : ℕ → ℕ → ℝ)
    (hmin : ∀ G, rsObjective m R (gramOf p Km) (mkRhs p M Km) F ≤
      rsObjective m R (gramOf p Km) (mkRhs p M Km) G) :
    ∀ i ∈ Finset.range m, ∀ c ∈ Finset.range p,
      (∑ r ∈ Finset.range R,
        nrmResid R (gramOf p Km) (mkRhs p M Km) F i r * Km c r) = 0 := by
  set E := nrmResid R (gramOf p Km) (mkRhs p M Km) F with hEdef
  have hcross := min_imp_cross_zero m R (gramOf p Km) (mkRhs p M Km) F hmin E
  have hexp : ipR m R E (fun i r => matMul R E (fun a b => gramOf p Km b a) i r) =
      ∑ i ∈ Finset.range m, ∑ c ∈ Finset.range p,
        (∑ r ∈ Finset.range R, E i r * Km c r) ^ 2 := by
    simp only [ipR, matMul, gramOf]
    refine Finset.sum_congr rfl fun i _ => ?_
    have h1 : ∑ r ∈ Finset.range R, E i r *
        (∑ s ∈ Finset.range R, E i s * ∑ c ∈ Finset.range p, Km c r * Km c s) =
        ∑ r ∈ Finset.range R, ∑ s ∈ Finset.range R, ∑ c ∈ Finset.range p,
          E i r * (E i s * (Km c r * Km c s)) := by
      simp only [Finset.mul_sum]
    have h2 : ∑ c ∈ Finset.range p, (∑ r ∈ Finset.range R, E i r * Km c r) ^ 2 =
        ∑ c ∈ Finset.range p, ∑ r ∈ Finset.range R, ∑ s ∈ Finset.range R,
          (E i r * Km c r) * (E i s * Km c s) := by
      refine Finset.sum_congr rfl fun c _ => ?_
      rw [pow_two, Finset.sum_mul_sum]
    rw [h1, h2,
      ← sum3_rotate R R p (fun r s c => (E i r * Km c r) * (E i s * Km c s))]
    refine Finset.sum_congr rfl fun r _ => Finset.sum_congr rfl fun s _ =>
      Finset.sum_congr rfl fun c _ => by ring
  rw [hexp] at hcross
  intro i hi c hc
  have hrow := (Finset.sum_eq_zero_iff_of_nonneg
    (fun x _ => Finset.sum_nonneg fun y _ => sq_nonneg _)).1 hcross i hi
  have hterm := (Finset.sum_eq_zero_iff_of_nonneg
    (fun y _ => sq_nonneg _)).1 hrow c hc
  exact pow_eq_zero_iff (n := 2) (by norm_num) |>.1 hterm

/-- The normal-system residual, written as the contraction of the
column-space residual with the Khatri-Rao matrix. -/
theorem nrmResid_as_contraction (p R : ℕ) (M Km F : ℕ → ℕ → ℝ) (i r : ℕ) :
    nrmResid R (gramOf p Km) (mkRhs p M Km) F i r =
      ∑ c ∈ Finset.range p,
        ((∑ s ∈ Finset.range R, F i s * Km c s) - M i c) * Km c r := by
  simp only [nrmResid, matMul, gramOf, mkRhs, sub_mul, Finset.sum_sub_distrib]
  congr 1
  simp only [Finset.mul_sum, Finset.sum_mul]
  rw [Finset.sum_comm]
  exact Finset.sum_congr rfl fun c _ => Finset.sum_congr rfl fun s _ => by ring

/-- For a minimiser of the rightsolve objective, the full normal equations
`F @ (K.T K) = M @ K` hold exactly on the relevant index ranges. -/
theorem min_imp_E_zero (m p R : ℕ) (M Km F : ℕ → ℕ → ℝ)
    (hmin : ∀ G, rsObjective m R (gramOf p Km) (mkRhs p M Km) F ≤
      rsObjective m R (gramOf p Km) (mkRhs p M Km) G) :
    ∀ i ∈ Finset.range m, ∀ r ∈ Finset.range R,
      nrmResid R (gramOf p Km) (mkRhs p M Km) F i r = 0 := by
  set E := nrmResid R (gramOf p Km) (mkRhs p M Km) F with hEdef
  have hEK := min_imp_EK_zero m p R M Km F hmin
  have htot : ∑ i ∈ Finset.range m, ∑ r ∈ Finset.range R, E i r ^ 2 = 0 := by
    have hstep : ∀ i ∈ Finset.range m, ∑ r ∈ Finset.range R, E i r ^ 2 =
        ∑ c ∈ Finset.range p,
          ((∑ s ∈ Finset.range R, F i s * Km c s) - M i c) *
            ∑ r ∈ Finset.range R, E i r * Km c r := by
      intro i hi
      have h1 : ∀ r, E i r ^ 2 = E i r * ∑ c ∈ Finset.range p,
          ((∑ s ∈ Finset.range R, F i s * Km c s) - M i c) * Km c r := by
        intro r
        rw [pow_two]
        nth_rewrite 2 [hEdef]
        rw [nrmResid_as_contraction]
      simp only [h1, Finset.mul_sum]
      rw [Finset.sum_comm]
      refine Finset.sum_congr rfl fun c _ => ?_
      exact Finset.sum_congr rfl fun r _ => by ring
    calc ∑ i ∈ Finset.range m, ∑ r ∈ Finset.range R, E i r ^ 2 =
        ∑ i ∈ Finset.range m, ∑ c ∈ Finset.range p,
          ((∑ s ∈ Finset.range R, F i s * Km c s) - M i c) *
            ∑ r ∈ Finset.range R, E i r * Km c r :=
          Finset.sum_congr rfl hstep
      _ = 0 := Finset.sum_eq_zero fun i hi => Finset.sum_eq_zero fun c hc => by
          rw [hEK i hi c hc, mul_zero]
  intro i hi r hr
  have hrow := (Finset.sum_eq_zero_iff_of_nonneg
    (fun x _ => Finset.sum_nonneg fun y _ => sq_nonneg _)).1 htot i hi
  have hterm := (Finset.sum_eq_zero_iff_of_nonneg
    (fun y _ => sq_nonneg _)).1 hrow r hr
  exact pow_eq_zero_iff (n := 2) (by norm_num) |>.1 hterm

/-- Exact normal equations imply the factor is a minimiser of the Frobenius
residual `‖M - F @ K.T‖²` over all candidate factors. -/
theorem normal_zero_imp_frob_min (m p R : ℕ) (M Km F : ℕ → ℕ → ℝ)
    (hE : ∀ i ∈ Finset.range m, ∀ r ∈ Finset.range R,
      nrmResid R (gramOf p Km) (mkRhs p M Km) F i r = 0) :
    ∀ G, frobResid m p R M Km F ≤ frobResid m p R M Km G := by
  intro G
  have hAK : ∀ i ∈ Finset.range m, ∀ r ∈ Finset.range R,
      (∑ c ∈ Finset.range p,
        (M i c - ∑ s ∈ Finset.range R, F i s * Km c s) * Km c r) = 0 := by
    intro i hi r hr
    have h1 := hE i hi r hr
    rw [nrmResid_as_contraction] at h1
    have h2 : ∑ c ∈ Finset.range p,
        (M i c - ∑ s ∈ Finset.range R, F i s * Km c s) * Km c r =
        -∑ c ∈ Finset.range p,
          ((∑ s ∈ Finset.range R, F i s * Km c s) - M i c) * Km c r := by
      rw [← Finset.sum_neg_distrib]
      exact Finset.sum_congr rfl fun c _ => by ring
    rw [h2, h1, neg_zero]
  have hsplit : ∀ i c, (M i c - ∑ r ∈ Finset.range R, G i r * Km c r) ^ 2 =
      (M i c - ∑ r ∈ Finset.range R, F i r * Km c r) ^ 2 +
        (2 * ((M i c - ∑ r ∈ Finset.range R, F i r * Km c r) *
          ∑ r ∈ Finset.range R, (F i r - G i r) * Km c r) +
          (∑ r ∈ Finset.range R, (F i r - G i r) * Km c r) ^ 2) := by
    intro i c
    have h3 : ∑ r ∈ Finset.range R, G i r * Km c r =
        (∑ r ∈ Finset.range R, F i r * Km c r) -
          ∑ r ∈ Finset.range R, (F i r - G i r) * Km c r := by
      rw [← Finset.sum_sub_distrib]
      exact Finset.sum_congr rfl fun r _ => by ring
    rw [h3]
    ring
  have hexp : frobResid m p R M Km G = frobResid m p R M Km F +
      (2 * ∑ i ∈ Finset.range m, ∑ c ∈ Finset.range p,
        ((M i c - ∑ r ∈ Finset.range R, F i r * Km c r) *
          ∑ r ∈ Finset.range R, (F i r - G i r) * Km c r) +
        ∑ i ∈ Finset.range m, ∑ c ∈ Finset.range p,
          (∑ r ∈ Finset.range R, (F i r - G i r) * Km c r) ^ 2) := by
    simp only [frobResid, hsplit, Finset.sum_add_distrib, Finset.mul_sum]
  have hcross : ∑ i ∈ Finset.range m, ∑ c ∈ Finset.range p,
      ((M i c - ∑ r ∈ Finset.range R, F i r * Km c r) *
        ∑ r ∈ Finset.range R, (F i r - G i r) * Km c r) = 0 := by
    have h4 : ∀ i, ∑ c ∈ Finset.range p,
        ((M i c - ∑ r ∈ Finset.range R, F i r * Km c r) *
          ∑ r ∈ Finset.range R, (F i r - G i r) * Km c r) =
        ∑ r ∈ Finset.range R, (F i r - G i r) *
          ∑ c ∈ Finset.range p,
            (M i c - ∑ s ∈ Finset.range R, F i s * Km c s) * Km c r := by
      intro i
      simp only [Finset.mul_sum]
      rw [Finset.sum_comm]
      exact Finset.sum_congr rfl fun r _ => Finset.sum_congr rfl fun c _ => by ring
    simp only [h4]
    exact Finset.sum_eq_zero fun i hi => Finset.sum_eq_zero fun r hr => by
      rw [hAK i hi r hr, mul_zero]
  rw [hexp, hcross]
  have hsq : 0 ≤ ∑ i ∈ Finset.range m, ∑ c ∈ Finset.range p,
      (∑ r ∈ Finset.range R, (F i r - G i r) * Km c r) ^ 2 :=
    Finset.sum_nonneg fun i _ => Finset.sum_nonneg fun c _ => sq_nonneg _
  linarith

/-- Any rightsolve output for the Gram/MTTKRP system minimises the Frobenius
residual of the corresponding mode subproblem. -/
theorem rightsolve_frob_optimal (m p R : ℕ) (M Km F : ℕ → ℕ → ℝ)
    (hmin : IsRightsolve m R (gramOf p Km) (mkRhs p M Km) F) :
    ∀ G, frobResid m p R M Km F ≤ frobResid m p R M Km G :=
  normal_zero_imp_frob_min m p R M Km F (min_imp_E_zero m p R M Km F hmin)

/-! ## Per-mode identities: Hadamard Gram = Khatri-Rao Gram, MTTKRP = M @ K -/

theorem alsLHS0_eq_gramOf (I J K : ℕ) (S : KT3) :
    alsLHS I J K S 0 = gramOf (J * K) (khatriRaoBinary ⟨S.B, J⟩ ⟨S.C, K⟩).entry := by
  funext r s
  have hL : alsLHS I J K S 0 r s = gramMat J S.B r s * gramMat K S.C r s := by
    simp [alsLHS]
  have hR : gramOf (J * K) (khatriRaoBinary ⟨S.B, J⟩ ⟨S.C, K⟩).entry r s =
      ∑ j ∈ Finset.range J, ∑ k ∈ Finset.range K,
        (S.B j r * S.C k r) * (S.B j s * S.C k s) := by
    rw [gramOf, sum_range_mul (fun c => (khatriRaoBinary ⟨S.B, J⟩ ⟨S.C, K⟩).entry c r *
      (khatriRaoBinary ⟨S.B, J⟩ ⟨S.C, K⟩).entry c s) J K]
    refine Finset.sum_congr rfl fun j _ => Finset.sum_congr rfl fun k hk => ?_
    rw [Finset.mem_range] at hk
    show (S.B ((j * K + k) / K) r * S.C ((j * K + k) % K) r) *
        (S.B ((j * K + k) / K) s * S.C ((j * K + k) % K) s) = _
    rw [block_div hk, block_mod hk]
  rw [hL, hR, gramMat, gramMat, Finset.sum_mul_sum]
  exact Finset.sum_congr rfl fun j _ => Finset.sum_congr rfl fun k _ => by ring

theorem alsLHS1_eq_gramOf (I J K : ℕ) (S : KT3) :
    alsLHS I J K S 1 = gramOf (I * K) (khatriRaoBinary ⟨S.A, I⟩ ⟨S.C, K⟩).entry := by
  funext r s
  have hL : alsLHS I J K S 1 r s = gramMat I S.A r s * gramMat K S.C r s := by
    simp [alsLHS]
  have hR : gramOf (I * K) (khatriRaoBinary ⟨S.A, I⟩ ⟨S.C, K⟩).entry r s =
      ∑ i ∈ Finset.range I, ∑ k ∈ Finset.range K,
        (S.A i r * S.C k r) * (S.A i s * S.C k s) := by
    rw [gramOf, sum_range_mul (fun c => (khatriRaoBinary ⟨S.A, I⟩ ⟨S.C, K⟩).entry c r *
      (khatriRaoBinary ⟨S.A, I⟩ ⟨S.C, K⟩).entry c s) I K]
    refine Finset.sum_congr rfl fun i _ => Finset.sum_congr rfl fun k hk => ?_
    rw [Finset.mem_range] at hk
    show (S.A ((i * K + k) / K) r * S.C ((i * K + k) % K) r) *
        (S.A ((i * K + k) / K) s * S.C ((i * K + k) % K) s) = _
    rw [block_div hk, block_mod hk]
  rw [hL, hR, gramMat, gramMat, Finset.sum_mul_sum]
  exact Finset.sum_congr rfl fun i _ => Finset.sum_congr rfl fun k _ => by ring

theorem alsLHS2_eq_gramOf (I J K : ℕ) (S : KT3) :
    alsLHS I J K S 2 = gramOf (I * J) (khatriRaoBinary ⟨S.A, I⟩ ⟨S.B, J⟩).entry := by
  funext r s
  have hL : alsLHS I J K S 2 r s = gramMat I S.A r s * gramMat J S.B r s := by
    simp [alsLHS]
  have hR : gramOf (I * J) (khatriRaoBinary ⟨S.A, I⟩ ⟨S.B, J⟩).entry r s =
      ∑ i ∈ Finset.range I, ∑ j ∈ Finset.range J,
        (S.A i r * S.B j r) * (S.A i s * S.B j s) := by
    rw [gramOf, sum_range_mul (fun c => (khatriRaoBinary ⟨S.A, I⟩ ⟨S.B, J⟩).entry c r *
      (khatriRaoBinary ⟨S.A, I⟩ ⟨S.B, J⟩).entry c s) I J]
    refine Finset.sum_congr rfl fun i _ => Finset.sum_congr rfl fun j hj => ?_
    rw [Finset.mem_range] at hj
    show (S.A ((i * J + j) / J) r * S.B ((i * J + j) % J) r) *
        (S.A ((i * J + j) / J) s * S.B ((i * J + j) % J) s) = _
    rw [block_div hj, block_mod hj]
  rw [hL, hR, gramMat, gramMat, Finset.sum_mul_sum]
  exact Finset.sum_congr rfl fun i _ => Finset.sum_congr rfl fun j _ => by ring

theorem mttkrp0_eq_mkRhs (X : ℕ → ℕ → ℕ → ℝ) (I J K : ℕ) (A B C : ℕ → ℕ → ℝ) :
    mttkrp3 X I J K A B C 0 =
      mkRhs (J * K) (fun i c => X i (c / K) (c % K))
        (khatriRaoBinary ⟨B, J⟩ ⟨C, K⟩).entry := rfl

theorem mttkrp1_eq_mkRhs (X : ℕ → ℕ → ℕ → ℝ) (I J K : ℕ) (A B C : ℕ → ℕ → ℝ) :
    mttkrp3 X I J K A B C 1 =
      mkRhs (I * K) (fun j c => X (c / K) j (c % K))
        (khatriRaoBinary ⟨A, I⟩ ⟨C, K⟩).entry := by
  funext j r
  exact mttkrpMid_eq_generic_sum X A C I K j r

theorem mttkrp2_eq_mkRhs (X : ℕ → ℕ → ℕ → ℝ) (I J K : ℕ) (A B C : ℕ → ℕ → ℝ) :
    mttkrp3 X I J K A B C 2 =
      mkRhs (I * J) (fun k c => X (c / J) (c % J) k)
        (khatriRaoBinary ⟨A, I⟩ ⟨B, J⟩).entry := rfl

/-! ## Frobenius residuals as triple sums over tensor entries -/

theorem frob0_triple (I J K R : ℕ) (X : ℕ → ℕ → ℕ → ℝ) (Bm Cm F : ℕ → ℕ → ℝ) :
    frobResid I (J * K) R (fun i c => X i (c / K) (c % K))
        (khatriRaoBinary ⟨Bm, J⟩ ⟨Cm, K⟩).entry F =
      ∑ i ∈ Finset.range I, ∑ j ∈ Finset.range J, ∑ k ∈ Finset.range K,
        (X i j k - ∑ r ∈ Finset.range R, F i r * (Bm j r * Cm k r)) ^ 2 := by
  simp only [frobResid]
  refine Finset.sum_congr rfl fun i _ => ?_
  rw [sum_range_mul (fun c => (X i (c / K) (c % K) - ∑ r ∈ Finset.range R,
    F i r * (khatriRaoBinary ⟨Bm, J⟩ ⟨Cm, K⟩).entry c r) ^ 2) J K]
  refine Finset.sum_congr rfl fun j _ => Finset.sum_congr rfl fun k hk => ?_
  rw [Finset.mem_range] at hk
  show (X i ((j * K + k) / K) ((j * K + k) % K) - ∑ r ∈ Finset.range R,
      F i r * (Bm ((j * K + k) / K) r * Cm ((j * K + k) % K) r)) ^ 2 = _
  rw [block_div hk, block_mod hk]

theorem frob1_triple (I J K R : ℕ) (X : ℕ → ℕ → ℕ → ℝ) (Am Cm F : ℕ → ℕ → ℝ) :
    frobResid J (I * K) R (fun j c => X (c / K) j (c % K))
        (khatriRaoBinary ⟨Am, I⟩ ⟨Cm, K⟩).entry F =
      ∑ i ∈ Finset.range I, ∑ j ∈ Finset.range J, ∑ k ∈ Finset.range K,
        (X i j k - ∑ r ∈ Finset.range R, F j r * (Am i r * Cm k r)) ^ 2 := by
  have h1 : frobResid J (I * K) R (fun j c => X (c / K) j (c % K))
      (khatriRaoBinary ⟨Am, I⟩ ⟨Cm, K⟩).entry F =
      ∑ j ∈ Finset.range J, ∑ i ∈ Finset.range I, ∑ k ∈ Finset.range K,
        (X i j k - ∑ r ∈ Finset.range R, F j r * (Am i r * Cm k r)) ^ 2 := by
    simp only [frobResid]
    refine Finset.sum_congr rfl fun j _ => ?_
    rw [sum_range_mul (fun c => (X (c / K) j (c % K) - ∑ r ∈ Finset.range R,
      F j r * (khatriRaoBinary ⟨Am, I⟩ ⟨Cm, K⟩).entry c r) ^ 2) I K]
    refine Finset.sum_congr rfl fun i _ => Finset.sum_congr rfl fun k hk => ?_
    rw [Finset.mem_range] at hk
    show (X ((i * K + k) / K) j ((i * K + k) % K) - ∑ r ∈ Finset.range R,
        F j r * (Am ((i * K + k) / K) r * Cm ((i * K + k) % K) r)) ^ 2 = _
    rw [block_div hk, block_mod hk]
  rw [h1]
  exact sum3_swap12 J I K (fun j i k =>
    (X i j k - ∑ r ∈ Finset.range R, F j r * (Am i r * Cm k r)) ^ 2)

theorem frob2_triple (I J K R : ℕ) (X : ℕ → ℕ → ℕ → ℝ) (Am Bm F : ℕ → ℕ → ℝ) :
    frobResid K (I * J) R (fun k c => X (c / J) (c % J) k)
        (khatriRaoBinary ⟨Am, I⟩ ⟨Bm, J⟩).entry F =
      ∑ i ∈ Finset.range I, ∑ j ∈ Finset.range J, ∑ k ∈ Finset.range K,
        (X i j k - ∑ r ∈ Finset.range R, F k r * (Am i r * Bm j r)) ^ 2 := by
  have h1 : frobResid K (I * J) R (fun k c => X (c / J) (c % J) k)
      (khatriRaoBinary ⟨Am, I⟩ ⟨Bm, J⟩).entry F =
      ∑ k ∈ Finset.range K, ∑ i ∈ Finset.range I, ∑ j ∈ Finset.range J,
        (X i j k - ∑ r ∈ Finset.range R, F k r * (Am i r * Bm j r)) ^ 2 := by
    simp only [frobResid]
    refine Finset.sum_congr rfl fun k _ => ?_
    rw [sum_range_mul (fun c => (X (c / J) (c % J) k - ∑ r ∈ Finset.range R,
      F k r * (khatriRaoBinary ⟨Am, I⟩ ⟨Bm, J⟩).entry c r) ^ 2) I J]
    refine Finset.sum_congr rfl fun i _ => Finset.sum_congr rfl fun j hj => ?_
    rw [Finset.mem_range] at hj
    show (X ((i * J + j) / J) ((i * J + j) % J) k - ∑ r ∈ Finset.range R,
        F k r * (Am ((i * J + j) / J) r * Bm ((i * J + j) % J) r)) ^ 2 = _
    rw [block_div hj, block_mod hj]
  rw [h1]
  exact (sum3_rotate I J K (fun i j k =>
    (X i j k - ∑ r ∈ Finset.range R, F k r * (Am i r * Bm j r)) ^ 2)).symm

theorem SSE3_eq_triple (I J K R : ℕ) (X : ℕ → ℕ → ℕ → ℝ) (S : KT3) :
    SSE3 I J K R X S =
      ∑ i ∈ Finset.range I, ∑ j ∈ Finset.range J, ∑ k ∈ Finset.range K,
        (X i j k - ∑ r ∈ Finset.range R,
          (S.w r * S.A i r) * (S.B j r * S.C k r)) ^ 2 := by
  simp only [SSE3]
  refine Finset.sum_congr rfl fun i _ => Finset.sum_congr rfl fun j _ =>
    Finset.sum_congr rfl fun k hk => ?_
  rw [Finset.mem_range] at hk
  rw [constructTensor3_entry I J K R S i j k hk]

/-! ## Per-mode ALS steps do not increase the SSE -/

theorem alsStep0_sse_le (I J K R : ℕ) (X : ℕ → ℕ → ℕ → ℝ) (S : KT3)
    (F : ℕ → ℕ → ℝ)
    (hF : IsRightsolve I R (alsLHS I J K S 0) (mttkrp3 X I J K S.A S.B S.C 0) F)
    (hFn : ∀ r < R, colNorm I F r ≠ 0) (hBn : ∀ r < R, colNorm J S.B r ≠ 0)
    (hCn : ∀ r < R, colNorm K S.C r ≠ 0) :
    SSE3 I J K R X (alsStep I J K S 0 F) ≤ SSE3 I J K R X S := by
  have hF2 : IsRightsolve I R
      (gramOf (J * K) (khatriRaoBinary ⟨S.B, J⟩ ⟨S.C, K⟩).entry)
      (mkRhs (J * K) (fun i c => X i (c / K) (c % K))
        (khatriRaoBinary ⟨S.B, J⟩ ⟨S.C, K⟩).entry) F := by
    rw [← alsLHS0_eq_gramOf I J K S, ← mttkrp0_eq_mkRhs X I J K S.A S.B S.C]
    exact hF
  have hopt := rightsolve_frob_optimal I (J * K) R (fun i c => X i (c / K) (c % K))
    (khatriRaoBinary ⟨S.B, J⟩ ⟨S.C, K⟩).entry F hF2
  have hL : SSE3 I J K R X (alsStep I J K S 0 F) =
      frobResid I (J * K) R (fun i c => X i (c / K) (c % K))
        (khatriRaoBinary ⟨S.B, J⟩ ⟨S.C, K⟩).entry F := by
    rw [SSE3_eq_triple, frob0_triple]
    refine Finset.sum_congr rfl fun i _ => Finset.sum_congr rfl fun j _ =>
      Finset.sum_congr rfl fun k _ => ?_
    have hsum : ∑ r ∈ Finset.range R,
        ((alsStep I J K S 0 F).w r * (alsStep I J K S 0 F).A i r) *
          ((alsStep I J K S 0 F).B j r * (alsStep I J K S 0 F).C k r) =
        ∑ r ∈ Finset.range R, F i r * (S.B j r * S.C k r) := by
      refine Finset.sum_congr rfl fun r hr => ?_
      rw [Finset.mem_range] at hr
      exact normalized_recon_term I J K (updFactor S 0 F) r
        (hFn r hr) (hBn r hr) (hCn r hr) i j k
    rw [hsum]
  have hR : SSE3 I J K R X S =
      frobResid I (J * K) R (fun i c => X i (c / K) (c % K))
        (khatriRaoBinary ⟨S.B, J⟩ ⟨S.C, K⟩).entry (fun i r => S.w r * S.A i r) := by
    rw [SSE3_eq_triple, frob0_triple]
  rw [hL, hR]
  exact hopt _

theorem alsStep1_sse_le (I J K R : ℕ) (X : ℕ → ℕ → ℕ → ℝ) (S : KT3)
    (G : ℕ → ℕ → ℝ)
    (hG : IsRightsolve J R (alsLHS I J K S 1) (mttkrp3 X I J K S.A S.B S.C 1) G)
    (hAn : ∀ r < R, colNorm I S.A r ≠ 0) (hGn : ∀ r < R, colNorm J G r ≠ 0)
    (hCn : ∀ r < R, colNorm K S.C r ≠ 0) :
    SSE3 I J K R X (alsStep I J K S 1 G) ≤ SSE3 I J K R X S := by
  have hG2 : IsRightsolve J R
      (gramOf (I * K) (khatriRaoBinary ⟨S.A, I⟩ ⟨S.C, K⟩).entry)
      (mkRhs (I * K) (fun j c => X (c / K) j (c % K))
        (khatriRaoBinary ⟨S.A, I⟩ ⟨S.C, K⟩).entry) G := by
    rw [← alsLHS1_eq_gramOf I J K S, ← mttkrp1_eq_mkRhs X I J K S.A S.B S.C]
    exact hG
  have hopt := rightsolve_frob_optimal J (I * K) R (fun j c => X (c / K) j (c % K))
    (khatriRaoBinary ⟨S.A, I⟩ ⟨S.C, K⟩).entry G hG2
  have hL : SSE3 I J K R X (alsStep I J K S 1 G) =
      frobResid J (I * K) R (fun j c => X (c / K) j (c % K))
        (khatriRaoBinary ⟨S.A, I⟩ ⟨S.C, K⟩).entry G := by
    rw [SSE3_eq_triple, frob1_triple]
    refine Finset.sum_congr rfl fun i _ => Finset.sum_congr rfl fun j _ =>
      Finset.sum_congr rfl fun k _ => ?_
    have hsum : ∑ r ∈ Finset.range R,
        ((alsStep I J K S 1 G).w r * (alsStep I J K S 1 G).A i r) *
          ((alsStep I J K S 1 G).B j r * (alsStep I J K S 1 G).C k r) =
        ∑ r ∈ Finset.range R, G j r * (S.A i r * S.C k r) := by
      refine Finset.sum_congr rfl fun r hr => ?_
      rw [Finset.mem_range] at hr
      refine (normalized_recon_term I J K (updFactor S 1 G) r
        (hAn r hr) (hGn r hr) (hCn r hr) i j k).trans ?_
      show S.A i r * (G j r * S.C k r) = G j r * (S.A i r * S.C k r)
      ring
    rw [hsum]
  have hR : SSE3 I J K R X S =
      frobResid J (I * K) R (fun j c => X (c / K) j (c % K))
        (khatriRaoBinary ⟨S.A, I⟩ ⟨S.C, K⟩).entry (fun j r => S.w r * S.B j r) := by
    rw [SSE3_eq_triple, frob1_triple]
    refine Finset.sum_congr rfl fun i _ => Finset.sum_congr rfl fun j _ =>
      Finset.sum_congr rfl fun k _ => ?_
    have hsum : ∑ r ∈ Finset.range R, (S.w r * S.A i r) * (S.B j r * S.C k r) =
        ∑ r ∈ Finset.range R, (S.w r * S.B j r) * (S.A i r * S.C k r) :=
      Finset.sum_congr rfl fun r _ => by ring
    rw [hsum]
  rw [hL, hR]
  exact hopt _

theorem alsStep2_sse_le (I J K R : ℕ) (X : ℕ → ℕ → ℕ → ℝ) (S : KT3)
    (H : ℕ → ℕ → ℝ)
    (hH : IsRightsolve K R (alsLHS I J K S 2) (mttkrp3 X I J K S.A S.B S.C 2) H)
    (hAn : ∀ r < R, colNorm I S.A r ≠ 0) (hBn : ∀ r < R, colNorm J S.B r ≠ 0)
    (hHn : ∀ r < R, colNorm K H r ≠ 0) :
    SSE3 I J K R X (alsStep I J K S 2 H) ≤ SSE3 I J K R X S := by
  have hH2 : IsRightsolve K R
      (gramOf (I * J) (khatriRaoBinary ⟨S.A, I⟩ ⟨S.B, J⟩).entry)
      (mkRhs (I * J) (fun k c => X (c / J) (c % J) k)
        (khatriRaoBinary ⟨S.A, I⟩ ⟨S.B, J⟩).entry) H := by
    rw [← alsLHS2_eq_gramOf I J K S, ← mttkrp2_eq_mkRhs X I J K S.A S.B S.C]
    exact hH
  have hopt := rightsolve_frob_optimal K (I * J) R (fun k c => X (c / J) (c % J) k)
    (khatriRaoBinary ⟨S.A, I⟩ ⟨S.B, J⟩).entry H hH2
  have hL : SSE3 I J K R X (alsStep I J K S 2 H) =
      frobResid K (I * J) R (fun k c => X (c / J) (c % J) k)
        (khatriRaoBinary ⟨S.A, I⟩ ⟨S.B, J⟩).entry H := by
    rw [SSE3_eq_triple, frob2_triple]
    refine Finset.sum_congr rfl fun i _ => Finset.sum_congr rfl fun j _ =>
      Finset.sum_congr rfl fun k _ => ?_
    have hsum : ∑ r ∈ Finset.range R,
        ((alsStep I J K S 2 H).w r * (alsStep I J K S 2 H).A i r) *
          ((alsStep I J K S 2 H).B j r * (alsStep I J K S 2 H).C k r) =
        ∑ r ∈ Finset.range R, H k r * (S.A i r * S.B j r) := by
      refine Finset.sum_congr rfl fun r hr => ?_
      rw [Finset.mem_range] at hr
      refine (normalized_recon_term I J K (updFactor S 2 H) r
        (hAn r hr) (hBn r hr) (hHn r hr) i j k).trans ?_
      show S.A i r * (S.B j r * H k r) = H k r * (S.A i r * S.B j r)
      ring
    rw [hsum]
  have hR : SSE3 I J K R X S =
      frobResid K (I * J) R (fun k c => X (c / J) (c % J) k)
        (khatriRaoBinary ⟨S.A, I⟩ ⟨S.B, J⟩).entry (fun k r => S.w r * S.C k r) := by
    rw [SSE3_eq_triple, frob2_triple]
    refine Finset.sum_congr rfl fun i _ => Finset.sum_congr rfl fun j _ =>
      Finset.sum_congr rfl fun k _ => ?_
    have hsum : ∑ r ∈ Finset.range R, (S.w r * S.A i r) * (S.B j r * S.C k r) =
        ∑ r ∈ Finset.range R, (S.w r * S.C k r) * (S.A i r * S.B j r) :=
      Finset.sum_congr rfl fun r _ => by ring
    rw [hsum]
  rw [hL, hR]
  exact hopt _

/-! ## Claim C3 -/

/-- Claim C3: for a fixed 3-mode target array and rank, with no
non-negativity constraints, one full ALS sweep of `CP_ALS`
(`_update_als_factors` over modes 0, 1, 2, normalising after each mode) does
not increase the sum-squared error, over exact arithmetic.  `F`, `G`, `H` are
the outputs of the three `rightsolve` calls (spec-modelled as minimisers of
their least-squares objectives, with the Gram left-hand side and MTTKRP
right-hand side computed from the state at the time of each call); the
nonzero-norm hypotheses exclude degenerate zero columns, where the source
would divide by zero while normalising. -/
theorem cpals_sweep_sse_nonincreasing (I J K R : ℕ) (X : ℕ → ℕ → ℕ → ℝ)
    (S : KT3) (F G H : ℕ → ℕ → ℝ)
    (hF : IsRightsolve I R (alsLHS I J K S 0) (mttkrp3 X I J K S.A S.B S.C 0) F)
    (hFn : ∀ r < R, colNorm I F r ≠ 0)
    (hBn : ∀ r < R, colNorm J S.B r ≠ 0)
    (hCn : ∀ r < R, colNorm K S.C r ≠ 0)
    (hG : IsRightsolve J R (alsLHS I J K (alsStep I J K S 0 F) 1)
      (mttkrp3 X I J K (alsStep I J K S 0 F).A (alsStep I J K S 0 F).B
        (alsStep I J K S 0 F).C 1) G)
    (hGn : ∀ r < R, colNorm J G r ≠ 0)
    (hH : IsRightsolve K R
      (alsLHS I J K (alsStep I J K (alsStep I J K S 0 F) 1 G) 2)
      (mttkrp3 X I J K (alsStep I J K (alsStep I J K S 0 F) 1 G).A
        (alsStep I J K (alsStep I J K S 0 F) 1 G).B
        (alsStep I J K (alsStep I J K S 0 F) 1 G).C 2) H)
    (hHn : ∀ r < R, colNorm K H r ≠ 0) :
    SSE3 I J K R X (alsSweep I J K S F G H) ≤ SSE3 I J K R X S := by
  set S1 := alsStep I J K S 0 F with hS1
  set S2 := alsStep I J K S1 1 G with hS2
  have hA1 : ∀ r < R, colNorm I S1.A r ≠ 0 := by
    intro r hr
    have h1 : colNorm I S1.A r = 1 :=
      colNorm_normalize_unit I (updFactor S 0 F).A r (hFn r hr)
    rw [h1]
    exact one_ne_zero
  have hC1 : ∀ r < R, colNorm K S1.C r ≠ 0 := by
    intro r hr
    have h1 : colNorm K S1.C r = 1 :=
      colNorm_normalize_unit K (updFactor S 0 F).C r (hCn r hr)
    rw [h1]
    exact one_ne_zero
  have hA2 : ∀ r < R, colNorm I S2.A r ≠ 0 := by
    intro r hr
    have h1 : colNorm I S2.A r = 1 :=
      colNorm_normalize_unit I (updFactor S1 1 G).A r (hA1 r hr)
    rw [h1]
    exact one_ne_zero
  have hB2 : ∀ r < R, colNorm J S2.B r ≠ 0 := by
    intro r hr
    have h1 : colNorm J S2.B r = 1 :=
      colNorm_normalize_unit J (updFactor S1 1 G).B r (hGn r hr)
    rw [h1]
    exact one_ne_zero
  have step0 := alsStep0_sse_le I J K R X S F hF hFn hBn hCn
  have step1 := alsStep1_sse_le I J K R X S1 G hG hA1 hGn hC1
  have step2 := alsStep2_sse_le I J K R X S2 H hH hA2 hB2 hHn
  calc SSE3 I J K R X (alsSweep I J K S F G H) =
      SSE3 I J K R X (alsStep I J K S2 2 H) := rfl
    _ ≤ SSE3 I J K R X S2 := step2
    _ ≤ SSE3 I J K R X S1 := step1
    _ ≤ SSE3 I J K R X S := step0

/-- Witness for C3: the 1×1×1 all-ones tensor, rank 1, all-ones factors and
weights; each rightsolve output is the (unique) exact solution `1`. -/
theorem cpals_sweep_sse_nonincreasing_witness :
    (∀ r < 1, colNorm 1 oneM r ≠ 0) ∧
      SSE3 1 1 1 1 (fun _ _ _ => 1) (alsSweep 1 1 1 ktOnes oneM oneM oneM) ≤
        SSE3 1 1 1 1 (fun _ _ _ => 1) ktOnes := by
  have hone : ∀ r, colNorm 1 oneM r = 1 := by
    intro r
    simp [colNorm, oneM]
  have hn : ∀ r < 1, colNorm 1 oneM r ≠ 0 := by
    intro r _
    rw [hone r]
    exact one_ne_zero
  refine ⟨hn, ?_⟩
  refine cpals_sweep_sse_nonincreasing 1 1 1 1 (fun _ _ _ => 1) ktOnes
    oneM oneM oneM ?_ hn hn hn ?_ hn ?_ hn
  · intro Gp
    simp [rsObjective, matMul, mttkrp3, alsLHS, gramMat, khatriRao_skip0,
      khatriRaoBinary, oneM, ktOnes, Finset.sum_range_one]
    positivity
  · intro Gp
    simp [rsObjective, matMul, mttkrp3, mttkrpMidWithKrp, alsLHS, gramMat,
      khatriRao_skip1, khatriRaoBinary, alsStep, normalizeKT, updFactor,
      colNorm, oneM, ktOnes, Finset.sum_range_one]
    positivity
  · intro Gp
    simp [rsObjective, matMul, mttkrp3, alsLHS, gramMat, khatriRao_skip2,
      khatriRaoBinary, alsStep, normalizeKT, updFactor, colNorm, oneM,
      ktOnes, Finset.sum_range_one]
    positivity

end PyTensor
